import Mathlib

/-!
Shallow embedding of the CSP engine from src/ConstraintSatisfactionProblem.py
and src/solver.py.

Modelling conventions:
- Python sets of integers are duplicate-free `List Int` values (membership is
  what matters; iteration order is the list order, standing in for the
  unspecified Python set iteration order).
- The directed compatibility table `self.allowed` (a Python dict keyed by
  ordered pairs) is an association list `List ((Nat × Nat) × List (Int × Int))`
  with unique keys; dict assignment updates an existing key in place
  (preserving its position) and appends a new key at the end, exactly like a
  Python dict.
- Raising an exception is modelled by `Except String`; an operation that
  raises leaves the model value unchanged (the Python object is not mutated
  when the raise happens before any mutation, which is the case in the source).
- Out-of-range indexing of `self.domains` / `self.neighbors` raises in Python;
  the installation operations guard indices explicitly, and read helpers use a
  default of the empty list (no claim exercises out-of-range reads).
-/

namespace CSPSpec

abbrev Pair := Int × Int
abbrev Arc := Nat × Nat

structure CSP where
  n_vars : Nat
  domains : List (List Int)
  allowed : List (Arc × List Pair)
  neighbors : List (List Nat)
  deriving Repr, DecidableEq

/-- Read the current domain of a variable (`self.domains[var]`). -/
def CSP.domain (csp : CSP) (v : Nat) : List Int := csp.domains.getD v []

/-- Read the neighbor set of a variable (`self.neighbors[var]`). -/
def CSP.neighbors_of (csp : CSP) (v : Nat) : List Nat := csp.neighbors.getD v []

/-- Replace the domain of a variable. -/
def CSP.setDom (csp : CSP) (v : Nat) (d : List Int) : CSP :=
  { csp with domains := csp.domains.set v d }

/-- Dict lookup `self.allowed.get((i, j))`. -/
def lookupArc (csp : CSP) (i j : Nat) : Option (List Pair) :=
  (csp.allowed.find? (fun e => e.1 = (i, j))).map (·.2)

/-- Dict assignment `self.allowed[(i, j)] = t`: update in place if the key is
present (keeping its position, as Python dicts do), otherwise append. -/
def setArc (al : List (Arc × List Pair)) (k : Arc) (t : List Pair) :
    List (Arc × List Pair) :=
  if al.any (fun e => e.1 = k) then
    al.map (fun e => if e.1 = k then (k, t) else e)
  else al ++ [(k, t)]

/-- Set insertion `self.neighbors[i].add(j)`. -/
def addToSet (l : List Nat) (x : Nat) : List Nat :=
  if x ∈ l then l else l ++ [x]

/-- Update the neighbor cache entry of `i` with new neighbor `j`. -/
def addNbr (ns : List (List Nat)) (i j : Nat) : List (List Nat) :=
  ns.set i (addToSet (ns.getD i []) j)

/-- Constructor `ConstraintSatisfactionProblem(n_vars, domains)`.  The two
asserts and the empty-domain check are modelled as errors; on success the
domains are converted to sets (duplicate-free lists), the compatibility table
is empty and the neighbor cache holds one empty set per variable. -/
def mkCSP (n_vars : Int) (domains : List (List Int)) : Except String CSP :=
  if n_vars < 1 then .error "CSP must have at least one variable"
  else if (domains.length : Int) ≠ n_vars then .error "One domain per variable is required"
  else if domains.any (fun d => d.isEmpty) then .error "Domain is empty at init"
  else .ok { n_vars := n_vars.toNat
             domains := domains.map List.dedup
             allowed := []
             neighbors := List.replicate n_vars.toNat [] }

/-- Source `add_binary_constraint(i, j, allowed_pairs)`: rejects `i == j`,
filters the pairs to the current domains, installs the table for arc `(i, j)`
and updates the neighbor cache for both endpoints. -/
def CSP.add_binary_constraint (csp : CSP) (i j : Nat) (allowed_pairs : List Pair) :
    Except String CSP :=
  if i = j then .error "Self-constraints should be expressed by shrinking the domain directly."
  else if i < csp.n_vars ∧ j < csp.n_vars then
    let Di := csp.domain i
    let Dj := csp.domain j
    let table := (allowed_pairs.filter (fun p => decide (p.1 ∈ Di) && decide (p.2 ∈ Dj))).dedup
    .ok { csp with allowed := setArc csp.allowed (i, j) table
                   neighbors := addNbr (addNbr csp.neighbors i j) j i }
  else .error "variable index out of range"

/-- Source `add_symmetric_binary_constraint(i, j, relation)`: installs the
relation for `(i, j)` and the pointwise-swapped relation for `(j, i)`. -/
def CSP.add_symmetric_binary_constraint (csp : CSP) (i j : Nat) (relation : List Pair) :
    Except String CSP := do
  let rel := relation.dedup
  let c1 ← csp.add_binary_constraint i j rel
  c1.add_binary_constraint j i (rel.map (fun p => (p.2, p.1)))

/-- Cartesian product of two domains restricted to distinct components:
`{(vi, vj) for vi in Di for vj in Dj if vi != vj}`. -/
def prodNe : List Int → List Int → List Pair
  | [], _ => []
  | vi :: rest, Dj => (Dj.filter (fun vj => vi ≠ vj)).map (fun vj => (vi, vj)) ++ prodNe rest Dj

/-- Source `add_all_diff_edge(i, j)`: installs the maximal not-equal relation
in both directions directly on the table.  The source performs no `i == j`
check here. -/
def CSP.add_all_diff_edge (csp : CSP) (i j : Nat) : Except String CSP :=
  if i < csp.n_vars ∧ j < csp.n_vars then
    let rel_ij := prodNe (csp.domain i) (csp.domain j)
    let rel_ji := rel_ij.map (fun p => (p.2, p.1))
    .ok { csp with allowed := setArc (setArc csp.allowed (i, j) rel_ij) (j, i) rel_ji
                   neighbors := addNbr (addNbr csp.neighbors i j) j i }
  else .error "variable index out of range"

/-- Source `arcs()`: the list of keys of the compatibility table, in dict
insertion order. -/
def CSP.arcs (csp : CSP) : List Arc := csp.allowed.map (·.1)

/-- Source `is_pair_allowed(i, vi, j, vj)`: vacuously true when no arc
`(i, j)` is present, otherwise membership in the table. -/
def CSP.is_pair_allowed (csp : CSP) (i : Nat) (vi : Int) (j : Nat) (vj : Int) : Bool :=
  match lookupArc csp i j with
  | none => true
  | some t => t.contains (vi, vj)

/-- Source `remove_from_domain(var, val)`. -/
def CSP.remove_from_domain (csp : CSP) (v : Nat) (x : Int) : CSP × Bool :=
  if x ∈ csp.domain v then (csp.setDom v ((csp.domain v).erase x), true)
  else (csp, false)

/-- Loop body of `revise`: iterate over a snapshot of `Di`, removing each
value with no support; the support check reads the current domain of `xj`
(which matters when `xi = xj`, since the two are then the same Python set). -/
def reviseGo (xi xj : Nat) (table : List Pair) :
    List Int → CSP → Bool → CSP × Bool
  | [], csp, removed => (csp, removed)
  | vi :: rest, csp, removed =>
    if (csp.domain xj).any (fun vj => table.contains (vi, vj)) then
      reviseGo xi xj table rest csp removed
    else
      reviseGo xi xj table rest (csp.setDom xi ((csp.domain xi).erase vi)) true

/-- Source `revise(xi, xj)`: no-op when arc `(xi, xj)` has no table, otherwise
remove unsupported values of `Di`, reporting whether anything was removed. -/
def CSP.revise (csp : CSP) (xi xj : Nat) : CSP × Bool :=
  match lookupArc csp xi xj with
  | none => (csp, false)
  | some table => reviseGo xi xj table (csp.domain xi) csp false

/-! ### AC-3 and the solver (src/solver.py) -/

/-- Values of `vi` with no support: used to state the behaviour of `revise`. -/
def unsupported (table : List Pair) (Dj : List Int) (vi : Int) : Bool :=
  !(Dj.any (fun vj => table.contains (vi, vj)))

/-- Sum of the sizes of all current domains (the AC-3 termination measure). -/
def totalDomSize (csp : CSP) : Nat := (csp.domains.map List.length).sum

/-- Upper bound on the length of any neighbor list of the model. -/
def maxNbLen (csp : CSP) : Nat := (csp.neighbors.map List.length).foldr max 0

/-- Loop of `ac3`, as a fuel-indexed iteration of the source while-loop: pop
the head arc, revise, fail on a wiped-out domain, otherwise re-enqueue the
arcs `(xk, xi)` for neighbors `xk` of `xi` other than `xj`.  The fuel is an
upper bound on the number of loop iterations; `ac3` below supplies a fuel
that provably dominates the loop termination measure, so the fuel never runs
out on a well-formed model (see `ac3Fuel_fuel_irrel`). -/
def ac3Fuel : Nat → CSP → List Arc → CSP × Bool
  | 0, csp, _ => (csp, false)
  | _ + 1, csp, [] => (csp, true)
  | fuel + 1, csp, (xi, xj) :: Q =>
    let r := csp.revise xi xj
    if r.2 then
      if (r.1.domain xi).isEmpty then (r.1, false)
      else
        ac3Fuel fuel r.1
          (Q ++ ((r.1.neighbors_of xi).filter (fun xk => xk ≠ xj)).map (fun xk => (xk, xi)))
    else ac3Fuel fuel r.1 Q

/-- Fuel that dominates the AC-3 termination measure: every iteration either
removes at least one domain value (enqueuing at most `maxNbLen` arcs) or
shrinks the queue by one. -/
def ac3Bound (csp : CSP) (Q : List Arc) : Nat :=
  totalDomSize csp * (maxNbLen csp + 1) + Q.length + 1

/-- Source `ac3(csp)`: seeds the queue with all current arcs and iterates to
fixpoint, returning the pruned model and the success flag. -/
def ac3 (csp : CSP) : CSP × Bool :=
  ac3Fuel (ac3Bound csp csp.arcs) csp csp.arcs

/-- Variable-selection strategies of `select_unassigned_variable`; the
constructor `first` is the strategy the source names `"none"`. -/
inductive VarStrategy | first | mrv | degree | mrvDegree
  deriving Repr, DecidableEq

/-- Inference options of `backtracking_search`. -/
inductive Inference | skip | ac3
  deriving Repr, DecidableEq

/-- Configuration surface of `backtracking_search`. -/
structure Config where
  strategy : VarStrategy
  use_lcv : Bool
  inference : Inference
  deriving Repr, DecidableEq

/-- Lookup in the mutable assignment dict `{var: value}` of the solver. -/
def lookupAsg (asg : List (Nat × Int)) (v : Nat) : Option Int :=
  (asg.find? (fun p => p.1 = v)).map (·.2)

/-- Source `[v for v in range(csp.n_vars) if v not in assignment]`. -/
def unassignedVars (csp : CSP) (asg : List (Nat × Int)) : List Nat :=
  (List.range csp.n_vars).filter (fun v => (lookupAsg asg v).isNone)

/-- Source `deg(v)`: the number of unassigned neighbors of `v`. -/
def degreeOf (csp : CSP) (asg : List (Nat × Int)) (v : Nat) : Nat :=
  ((csp.neighbors_of v).filter (fun nb => (lookupAsg asg nb).isNone)).length

/-- Python `min(x :: xs, key)`: the first element attaining the minimum. -/
def firstMinBy (key : Nat → Nat) (x : Nat) (xs : List Nat) : Nat :=
  xs.foldl (fun b v => if key v < key b then v else b) x

/-- Python `max(x :: xs, key)`: the first element attaining the maximum. -/
def firstMaxBy (key : Nat → Nat) (x : Nat) (xs : List Nat) : Nat :=
  xs.foldl (fun b v => if key b < key v then v else b) x

/-- Source `select_unassigned_variable`; `none` models the `ValueError`
raised on a complete assignment. -/
def select_unassigned_variable (csp : CSP) (asg : List (Nat × Int))
    (strat : VarStrategy) : Option Nat :=
  match unassignedVars csp asg with
  | [] => none
  | u :: us =>
    match strat with
    | .first => some u
    | .degree => some (firstMaxBy (degreeOf csp asg) u us)
    | .mrv => some (firstMinBy (fun v => (csp.domain v).length) u us)
    | .mrvDegree =>
      match (u :: us).filter (fun v => (csp.domain v).length =
          us.foldl (fun m w => min m ((csp.domain w).length)) ((csp.domain u).length)) with
      | [] => none
      | c :: cs => some (firstMaxBy (degreeOf csp asg) c cs)

/-- Source `lcv_score(val)`: over every unassigned neighbor `nb` of `var`,
count the values of `nb` that `var = val` would rule out. -/
def lcv_score (csp : CSP) (var : Nat) (asg : List (Nat × Int)) (val : Int) : Nat :=
  (((csp.neighbors_of var).filter (fun nb => (lookupAsg asg nb).isNone)).map
    (fun nb => (csp.domain nb).countP (fun nbv => !(csp.is_pair_allowed var val nb nbv)))).sum

/-- Stable insertion of `x` into a list sorted by `key`: `x` goes after every
element with a strictly smaller key and before the rest. -/
def insertByKey (key : Int → Nat) (x : Int) : List Int → List Int
  | [] => [x]
  | y :: ys => if key y < key x then y :: insertByKey key x ys else x :: y :: ys

/-- Stable sort by key, the behaviour of Python `sorted(values, key=...)`
(sorted is specified to be stable; a stable sort by key is extensionally
unique, so insertion sort is a faithful model). -/
def sortByKey (key : Int → Nat) : List Int → List Int
  | [] => []
  | x :: xs => insertByKey key x (sortByKey key xs)

/-- Source `order_domain_values`: the domain snapshot, LCV-sorted when
requested. -/
def order_domain_values (csp : CSP) (var : Nat) (asg : List (Nat × Int))
    (use_lcv : Bool) : List Int :=
  let values := csp.domain var
  if !use_lcv then values else sortByKey (lcv_score csp var asg) values

/-- Source `is_locally_consistent`: checks `var = val` against every
already-assigned variable, in both constraint directions. -/
def is_locally_consistent (csp : CSP) (var : Nat) (val : Int)
    (asg : List (Nat × Int)) : Bool :=
  asg.all (fun p => csp.is_pair_allowed var val p.1 p.2 &&
                    csp.is_pair_allowed p.1 p.2 var val)

/-- Inference step of the search: `none` keeps the child, `ac3` keeps it only
when the propagator succeeds (the pruned clone is carried into the branch). -/
def inferenceStep (inf : Inference) (child : CSP) : Option CSP :=
  match inf with
  | .skip => some child
  | .ac3 => let r := ac3 child; if r.2 then some r.1 else none

/-- Value loop of `recurse`: try each candidate value in order, skipping
locally inconsistent ones, building the child node (the deep clone with the
domain of `var` collapsed to `{val}`), running inference, checking for a
wiped-out domain, and recursing via `rec`. -/
def tryValues (rec : CSP → List (Nat × Int) → Option (List (Nat × Int)))
    (cfg : Config) (csp : CSP) (asg : List (Nat × Int)) (var : Nat) :
    List Int → Option (List (Nat × Int))
  | [] => none
  | val :: rest =>
    if !is_locally_consistent csp var val asg then
      tryValues rec cfg csp asg var rest
    else
      match inferenceStep cfg.inference
          { csp with domains := csp.domains.set var [val] } with
      | none => tryValues rec cfg csp asg var rest
      | some child2 =>
        if (List.range child2.n_vars).any (fun v => (child2.domain v).isEmpty) then
          tryValues rec cfg csp asg var rest
        else
          match rec child2 (asg ++ [(var, val)]) with
          | some r => some r
          | none => tryValues rec cfg csp asg var rest

/-- Source `recurse(csp_node, assignment)`, indexed by fuel.  The mutable
dict is modelled by appending the new binding before the recursive call and
dropping it on failure.  Fuel `n_vars - asg.length` is exactly the recursion
depth the source needs: the goal test fires before the fuel is consulted, so
with the fuel supplied by `backtracking_search` the zero-fuel branch is
unreachable. -/
def recurseBT (cfg : Config) : Nat → CSP → List (Nat × Int) → Option (List (Nat × Int))
  | 0, csp, asg => if asg.length = csp.n_vars then some asg else none
  | fuel + 1, csp, asg =>
    if asg.length = csp.n_vars then some asg
    else
      match select_unassigned_variable csp asg cfg.strategy with
      | none => none
      | some var =>
        tryValues (recurseBT cfg fuel) cfg csp asg var
          (order_domain_values csp var asg cfg.use_lcv)

/-- Source `backtracking_search(csp, ...)`: run the recursion from the empty
assignment. -/
def backtracking_search (csp : CSP) (cfg : Config) : Option (List (Nat × Int)) :=
  recurseBT cfg csp.n_vars csp []

/-! ### Concrete models used by counterexamples and witnesses.
Each is built through the public construction interface; the counterexample
theorems pin the resulting model values. -/

/-- Build: one variable with domain `{1}`, then `add_all_diff_edge(0, 0)`. -/
def buildSelfArc1 : Except String CSP :=
  (mkCSP 1 [[1]]).bind (fun c => c.add_all_diff_edge 0 0)

/-- Value produced by `buildSelfArc1`. -/
def selfArc1 : CSP := ⟨1, [[1]], [((0, 0), [])], [[0]]⟩

/-- Build: one variable with domain `{1, 2}`, then `add_all_diff_edge(0, 0)`. -/
def buildSelfArc2 : Except String CSP :=
  (mkCSP 1 [[1, 2]]).bind (fun c => c.add_all_diff_edge 0 0)

/-- Value produced by `buildSelfArc2`. -/
def selfArc2 : CSP := ⟨1, [[1, 2]], [((0, 0), [(2, 1), (1, 2)])], [[0]]⟩

/-- Build: two variables, asymmetric directed tables installed one direction
at a time. -/
def buildAsym : Except String CSP :=
  ((mkCSP 2 [[1], [2, 3]]).bind (fun c => c.add_binary_constraint 0 1 [(1, 2)])).bind
    (fun c => c.add_binary_constraint 1 0 [(3, 1)])

/-- Value produced by `buildAsym`. -/
def asymModel : CSP :=
  ⟨2, [[1], [2, 3]], [((0, 1), [(1, 2)]), ((1, 0), [(3, 1)])], [[1], [0]]⟩

/-- Build: two variables with domains `{1, 2}` and a symmetric not-equal
edge. -/
def buildSym : Except String CSP :=
  (mkCSP 2 [[1, 2], [1, 2]]).bind (fun c => c.add_all_diff_edge 0 1)

/-- Value produced by `buildSym`. -/
def symModel : CSP :=
  ⟨2, [[1, 2], [1, 2]],
   [((0, 1), [(1, 2), (2, 1)]), ((1, 0), [(2, 1), (1, 2)])], [[1], [0]]⟩

/-! ### Basic structural lemmas -/

theorem setDom_n_vars (csp : CSP) (v : Nat) (d : List Int) :
    (csp.setDom v d).n_vars = csp.n_vars := rfl

theorem setDom_allowed (csp : CSP) (v : Nat) (d : List Int) :
    (csp.setDom v d).allowed = csp.allowed := rfl

theorem setDom_neighbors (csp : CSP) (v : Nat) (d : List Int) :
    (csp.setDom v d).neighbors = csp.neighbors := rfl

theorem setDom_domains_length (csp : CSP) (v : Nat) (d : List Int) :
    (csp.setDom v d).domains.length = csp.domains.length := by
  simp [CSP.setDom]

theorem domain_setDom_ne (csp : CSP) {w v : Nat} (h : w ≠ v) (d : List Int) :
    (csp.setDom v d).domain w = csp.domain w := by
  simp [CSP.setDom, CSP.domain, List.getD_eq_getElem?_getD, List.getElem?_set_ne (Ne.symm h)]

theorem domain_setDom_self (csp : CSP) (v : Nat) (d : List Int) :
    (csp.setDom v d).domain v = if v < csp.domains.length then d else [] := by
  by_cases h : v < csp.domains.length
  · simp [CSP.setDom, CSP.domain, List.getD_eq_getElem?_getD, List.getElem?_set_self h, h]
  · have hle : csp.domains.length ≤ v := Nat.le_of_not_lt h
    simp [CSP.setDom, CSP.domain, List.getD_eq_getElem?_getD, h,
      List.set_eq_of_length_le hle, List.getElem?_eq_none hle]

theorem domain_out_of_range (csp : CSP) {v : Nat} (h : csp.domains.length ≤ v) :
    csp.domain v = [] := by
  simp [CSP.domain, List.getD_eq_getElem?_getD, List.getElem?_eq_none h]

theorem domain_setDom_erase (csp : CSP) (v : Nat) (x : Int) :
    (csp.setDom v ((csp.domain v).erase x)).domain v = (csp.domain v).erase x := by
  rw [domain_setDom_self]
  by_cases h : v < csp.domains.length
  · simp [h]
  · simp [h, domain_out_of_range csp (Nat.le_of_not_lt h)]

/-! ### Characterization of revise -/

theorem reviseGo_n_vars (xi xj : Nat) (t : List Pair) :
    ∀ (l : List Int) (csp : CSP) (r : Bool),
      (reviseGo xi xj t l csp r).1.n_vars = csp.n_vars := by
  intro l
  induction l with
  | nil => intro csp r; rfl
  | cons vi rest ih =>
    intro csp r
    rw [reviseGo]
    by_cases h : ((csp.domain xj).any (fun vj => t.contains (vi, vj))) = true
    · rw [if_pos h]; exact ih csp r
    · rw [if_neg h]; exact ih _ true

theorem reviseGo_allowed (xi xj : Nat) (t : List Pair) :
    ∀ (l : List Int) (csp : CSP) (r : Bool),
      (reviseGo xi xj t l csp r).1.allowed = csp.allowed := by
  intro l
  induction l with
  | nil => intro csp r; rfl
  | cons vi rest ih =>
    intro csp r
    rw [reviseGo]
    by_cases h : ((csp.domain xj).any (fun vj => t.contains (vi, vj))) = true
    · rw [if_pos h]; exact ih csp r
    · rw [if_neg h]; exact ih _ true

theorem reviseGo_neighbors (xi xj : Nat) (t : List Pair) :
    ∀ (l : List Int) (csp : CSP) (r : Bool),
      (reviseGo xi xj t l csp r).1.neighbors = csp.neighbors := by
  intro l
  induction l with
  | nil => intro csp r; rfl
  | cons vi rest ih =>
    intro csp r
    rw [reviseGo]
    by_cases h : ((csp.domain xj).any (fun vj => t.contains (vi, vj))) = true
    · rw [if_pos h]; exact ih csp r
    · rw [if_neg h]; exact ih _ true

theorem reviseGo_domains_length (xi xj : Nat) (t : List Pair) :
    ∀ (l : List Int) (csp : CSP) (r : Bool),
      (reviseGo xi xj t l csp r).1.domains.length = csp.domains.length := by
  intro l
  induction l with
  | nil => intro csp r; rfl
  | cons vi rest ih =>
    intro csp r
    rw [reviseGo]
    by_cases h : ((csp.domain xj).any (fun vj => t.contains (vi, vj))) = true
    · rw [if_pos h]; exact ih csp r
    · rw [if_neg h]; rw [ih _ true, setDom_domains_length]

/-- Every domain of the model coming out of `reviseGo` is a sublist of the
corresponding incoming domain. -/
theorem reviseGo_domain_sublist (xi xj : Nat) (t : List Pair) :
    ∀ (l : List Int) (csp : CSP) (r : Bool) (w : Nat),
      ((reviseGo xi xj t l csp r).1.domain w).Sublist (csp.domain w) := by
  intro l
  induction l with
  | nil => intro csp r w; exact List.Sublist.refl _
  | cons vi rest ih =>
    intro csp r w
    rw [reviseGo]
    by_cases h : ((csp.domain xj).any (fun vj => t.contains (vi, vj))) = true
    · rw [if_pos h]; exact ih csp r w
    · rw [if_neg h]
      refine (ih _ true w).trans ?_
      by_cases hw : w = xi
      · subst hw
        rw [domain_setDom_erase]
        exact List.erase_sublist _ _
      · rw [domain_setDom_ne csp hw]

/-- Full characterization of the `reviseGo` loop when `xi ≠ xj`: the support
check is against the fixed domain `Dj` of `xj`, the values of the snapshot
`l` that lack support are removed (in order) from the domain of `xi`, no
other domain changes, and the flag records whether anything was removed. -/
theorem reviseGo_spec (xi xj : Nat) (hne : xi ≠ xj) (t : List Pair) (Dj : List Int) :
    ∀ (l : List Int) (csp : CSP) (r : Bool), csp.domain xj = Dj →
      (reviseGo xi xj t l csp r).2 = (r || l.any (unsupported t Dj)) ∧
      (reviseGo xi xj t l csp r).1.domain xi =
        (csp.domain xi).diff (l.filter (unsupported t Dj)) ∧
      (∀ w, w ≠ xi → (reviseGo xi xj t l csp r).1.domain w = csp.domain w) := by
  intro l
  induction l with
  | nil =>
    intro csp r hDj
    refine ⟨by simp [reviseGo], by simp [reviseGo, List.diff_nil], fun w _ => rfl⟩
  | cons vi rest ih =>
    intro csp r hDj
    rw [reviseGo]
    by_cases h : ((csp.domain xj).any (fun vj => t.contains (vi, vj))) = true
    · have hsup : unsupported t Dj vi = false := by
        simp only [unsupported, ← hDj, h, Bool.not_true]
      simp only [h, if_pos]
      obtain ⟨h1, h2, h3⟩ := ih csp r hDj
      refine ⟨?_, ?_, h3⟩
      · rw [h1]; simp [hsup]
      · rw [h2]; simp [hsup]
    · have hany : ((csp.domain xj).any (fun vj => t.contains (vi, vj))) = false :=
        Bool.eq_false_iff.mpr h
      have hsup : unsupported t Dj vi = true := by
        unfold unsupported; rw [← hDj, hany]; rfl
      rw [if_neg h]
      have hDj1 : (csp.setDom xi ((csp.domain xi).erase vi)).domain xj = Dj := by
        rw [domain_setDom_ne csp (Ne.symm hne), hDj]
      obtain ⟨h1, h2, h3⟩ := ih (csp.setDom xi ((csp.domain xi).erase vi)) true hDj1
      refine ⟨?_, ?_, ?_⟩
      · rw [h1]; simp [hsup]
      · rw [h2, domain_setDom_erase]
        simp only [List.filter_cons, hsup, if_pos, List.diff_cons]
      · intro w hw
        rw [h3 w hw, domain_setDom_ne csp hw]

theorem revise_of_lookup_none {csp : CSP} {xi xj : Nat}
    (h : lookupArc csp xi xj = none) : csp.revise xi xj = (csp, false) := by
  rw [CSP.revise, h]

/-- Characterization of `revise(xi, xj)` for a genuine arc between two
distinct variables: exactly the values of `Di` with no support in the current
`Dj` are removed, every other domain and every other field is unchanged, and
the flag is true iff some value was unsupported. -/
theorem revise_spec {csp : CSP} {xi xj : Nat} (hne : xi ≠ xj) {t : List Pair}
    (ht : lookupArc csp xi xj = some t) (hnd : (csp.domain xi).Nodup) :
    (csp.revise xi xj).1.domain xi =
      (csp.domain xi).filter (fun vi => (csp.domain xj).any (fun vj => t.contains (vi, vj))) ∧
    (csp.revise xi xj).2 = (csp.domain xi).any (unsupported t (csp.domain xj)) ∧
    (∀ w, w ≠ xi → (csp.revise xi xj).1.domain w = csp.domain w) := by
  rw [CSP.revise, ht]
  obtain ⟨h1, h2, h3⟩ :=
    reviseGo_spec xi xj hne t (csp.domain xj) (csp.domain xi) csp false rfl
  refine ⟨?_, by rw [h1]; simp, h3⟩
  rw [h2, List.Nodup.diff_eq_filter hnd]
  apply List.filter_congr
  intro x hx
  by_cases hu : ((csp.domain xj).any (fun vj => t.contains (x, vj))) = true
  · have hns : unsupported t (csp.domain xj) x = false := by
      unfold unsupported; rw [hu]; rfl
    rw [hu]
    simp only [decide_eq_true_eq]
    intro hmem
    have hcontr := (List.mem_filter.mp hmem).2
    rw [hns] at hcontr
    exact Bool.false_ne_true hcontr
  · have hany : ((csp.domain xj).any (fun vj => t.contains (x, vj))) = false :=
      Bool.eq_false_iff.mpr hu
    have hns : unsupported t (csp.domain xj) x = true := by
      unfold unsupported; rw [hany]; rfl
    rw [hany]
    have hmem : x ∈ List.filter (unsupported t (csp.domain xj)) (csp.domain xi) :=
      List.mem_filter.mpr ⟨hx, hns⟩
    simp [hmem]

theorem revise_n_vars (csp : CSP) (xi xj : Nat) :
    (csp.revise xi xj).1.n_vars = csp.n_vars := by
  rw [CSP.revise]
  cases lookupArc csp xi xj with
  | none => rfl
  | some t => exact reviseGo_n_vars xi xj t _ csp false

theorem revise_allowed (csp : CSP) (xi xj : Nat) :
    (csp.revise xi xj).1.allowed = csp.allowed := by
  rw [CSP.revise]
  cases lookupArc csp xi xj with
  | none => rfl
  | some t => exact reviseGo_allowed xi xj t _ csp false

theorem revise_neighbors (csp : CSP) (xi xj : Nat) :
    (csp.revise xi xj).1.neighbors = csp.neighbors := by
  rw [CSP.revise]
  cases lookupArc csp xi xj with
  | none => rfl
  | some t => exact reviseGo_neighbors xi xj t _ csp false

theorem revise_domains_length (csp : CSP) (xi xj : Nat) :
    (csp.revise xi xj).1.domains.length = csp.domains.length := by
  rw [CSP.revise]
  cases lookupArc csp xi xj with
  | none => rfl
  | some t => exact reviseGo_domains_length xi xj t _ csp false

theorem revise_domain_sublist (csp : CSP) (xi xj w : Nat) :
    ((csp.revise xi xj).1.domain w).Sublist (csp.domain w) := by
  rw [CSP.revise]
  cases lookupArc csp xi xj with
  | none => exact List.Sublist.refl _
  | some t => exact reviseGo_domain_sublist xi xj t _ csp false w

/-! ### Well-formedness predicates and arc consistency -/

/-- Keys of the compatibility table are pairwise distinct (a Python dict
cannot hold two entries with the same key). -/
abbrev keysNodup (csp : CSP) : Prop := (csp.allowed.map (·.1)).Nodup

/-- Every installed arc relates two distinct variables, the shape the spec
prescribes for arcs. -/
abbrev arcsDistinct (csp : CSP) : Prop := ∀ e ∈ csp.allowed, e.1.1 ≠ e.1.2

/-- The neighbor cache covers the table: the source variable of every arc is
recorded as a neighbor of the target variable. -/
abbrev nbCovers (csp : CSP) : Prop := ∀ e ∈ csp.allowed, e.1.1 ∈ csp.neighbors_of e.1.2

/-- Every current domain is duplicate-free (Python sets cannot hold
duplicates). -/
abbrev domainsNodup (csp : CSP) : Prop := ∀ d ∈ csp.domains, d.Nodup

/-- The directed table is symmetric: the table of each arc and the table of
the reverse arc hold pointwise-swapped pairs.  Models built only through
`add_symmetric_binary_constraint` and `add_all_diff_edge` have this shape. -/
abbrev symmetricTables (csp : CSP) : Prop :=
  ∀ e ∈ csp.allowed,
    (∀ p ∈ e.2, (p.2, p.1) ∈ (lookupArc csp e.1.2 e.1.1).getD []) ∧
    (∀ p ∈ (lookupArc csp e.1.2 e.1.1).getD [], (p.2, p.1) ∈ e.2)

/-- One arc is consistent: every value of the source domain has a support in
the target domain. -/
abbrev cons1 (csp : CSP) (i j : Nat) (t : List Pair) : Prop :=
  ∀ vi ∈ csp.domain i, ∃ vj ∈ csp.domain j, (vi, vj) ∈ t

/-- Local arc consistency of the whole model: every installed arc is
consistent. -/
abbrev arcConsistent (csp : CSP) : Prop :=
  ∀ e ∈ csp.allowed, cons1 csp e.1.1 e.1.2 e.2

/-! ### Association-list coherence -/

theorem find_arc_of_mem :
    ∀ (al : List (Arc × List Pair)), (al.map (·.1)).Nodup →
      ∀ e ∈ al, al.find? (fun x => x.1 = e.1) = some e := by
  intro al
  induction al with
  | nil => intro _ e he; exact absurd he (List.not_mem_nil e)
  | cons a rest ih =>
    intro hnd e he
    have hnd0 : (a.1 :: rest.map (·.1)).Nodup := by simpa using hnd
    have hnd1 := List.nodup_cons.mp hnd0
    rcases List.mem_cons.mp he with h | h
    · subst h
      exact List.find?_cons_of_pos _ (by simp)
    · have hne : a.1 ≠ e.1 := by
        intro hEq
        exact hnd1.1 (hEq ▸ List.mem_map_of_mem (·.1) h)
      rw [List.find?_cons_of_neg _ (by simpa using hne)]
      exact ih hnd1.2 e h

theorem lookupArc_of_mem {csp : CSP} (hnd : keysNodup csp) {e : Arc × List Pair}
    (he : e ∈ csp.allowed) : lookupArc csp e.1.1 e.1.2 = some e.2 := by
  unfold lookupArc
  rw [show ((e.1.1, e.1.2) : Arc) = e.1 from Prod.mk.eta]
  rw [find_arc_of_mem csp.allowed hnd e he]
  rfl

theorem mem_of_lookupArc {csp : CSP} {i j : Nat} {t : List Pair}
    (h : lookupArc csp i j = some t) : ((i, j), t) ∈ csp.allowed := by
  unfold lookupArc at h
  cases hf : csp.allowed.find? (fun x => x.1 = (i, j)) with
  | none => rw [hf] at h; cases h
  | some e =>
    rw [hf] at h
    have hp := List.find?_some hf
    have hm := List.mem_of_find?_eq_some hf
    simp only [decide_eq_true_eq] at hp
    have h2 : e.2 = t := by simpa using h
    have h3 : ((i, j), t) = e := by rw [← hp, ← h2]
    rw [h3]
    exact hm

theorem lookupArc_congr {c1 c2 : CSP} (h : c1.allowed = c2.allowed) (i j : Nat) :
    lookupArc c1 i j = lookupArc c2 i j := by
  unfold lookupArc; rw [h]

/-! ### Further revise lemmas -/

theorem reviseGo_flag_true (xi xj : Nat) (t : List Pair) :
    ∀ (l : List Int) (csp : CSP), (reviseGo xi xj t l csp true).2 = true := by
  intro l
  induction l with
  | nil => intro csp; rfl
  | cons vi rest ih =>
    intro csp
    rw [reviseGo]
    by_cases h : ((csp.domain xj).any (fun vj => t.contains (vi, vj))) = true
    · rw [if_pos h]; exact ih csp
    · rw [if_neg h]; exact ih _

theorem reviseGo_false_state (xi xj : Nat) (t : List Pair) :
    ∀ (l : List Int) (csp : CSP) (r : Bool),
      (reviseGo xi xj t l csp r).2 = false → (reviseGo xi xj t l csp r).1 = csp := by
  intro l
  induction l with
  | nil => intro csp r _; rfl
  | cons vi rest ih =>
    intro csp r hfl
    rw [reviseGo] at hfl ⊢
    by_cases h : ((csp.domain xj).any (fun vj => t.contains (vi, vj))) = true
    · rw [if_pos h] at hfl ⊢; exact ih csp r hfl
    · rw [if_neg h] at hfl
      rw [reviseGo_flag_true] at hfl
      cases hfl

theorem revise_false_state {csp : CSP} {xi xj : Nat}
    (h : (csp.revise xi xj).2 = false) : (csp.revise xi xj).1 = csp := by
  rw [CSP.revise] at h ⊢
  cases hlk : lookupArc csp xi xj with
  | none => rfl
  | some t =>
    rw [hlk] at h
    exact reviseGo_false_state xi xj t _ csp false h

theorem revise_true_lookup {csp : CSP} {xi xj : Nat}
    (h : (csp.revise xi xj).2 = true) : ∃ t, lookupArc csp xi xj = some t := by
  rw [CSP.revise] at h
  cases hlk : lookupArc csp xi xj with
  | none => rw [hlk] at h; cases h
  | some t => exact ⟨t, rfl⟩

theorem reviseGo_no_removal (xi xj : Nat) (t : List Pair) {csp : CSP} :
    ∀ (l : List Int),
      (∀ vi ∈ l, ((csp.domain xj).any (fun vj => t.contains (vi, vj))) = true) →
      ∀ r, reviseGo xi xj t l csp r = (csp, r) := by
  intro l
  induction l with
  | nil => intro _ r; rfl
  | cons vi rest ih =>
    intro hall r
    rw [reviseGo, if_pos (hall vi (List.mem_cons_self vi rest))]
    exact ih (fun x hx => hall x (List.mem_cons_of_mem vi hx)) r

theorem revise_of_cons1 {csp : CSP} {xi xj : Nat} {t : List Pair}
    (hlk : lookupArc csp xi xj = some t) (hc : cons1 csp xi xj t) :
    csp.revise xi xj = (csp, false) := by
  rw [CSP.revise, hlk]
  apply reviseGo_no_removal
  intro vi hvi
  obtain ⟨vj, hvj, hp⟩ := hc vi hvi
  exact List.any_eq_true.mpr ⟨vj, hvj, List.elem_iff.mpr hp⟩

theorem domain_nodup_of {csp : CSP} (h : domainsNodup csp) (w : Nat) :
    (csp.domain w).Nodup := by
  by_cases hw : w < csp.domains.length
  · have heq : csp.domain w = csp.domains[w] := by
      simp [CSP.domain, List.getD_eq_getElem?_getD, List.getElem?_eq_getElem hw]
    rw [heq]
    exact h _ (List.getElem_mem hw)
  · rw [domain_out_of_range csp (Nat.le_of_not_lt hw)]
    exact List.nodup_nil

theorem domainsNodup_iff (csp : CSP) :
    domainsNodup csp ↔ ∀ w, (csp.domain w).Nodup := by
  constructor
  · exact fun h w => domain_nodup_of h w
  · intro h d hd
    obtain ⟨n, hn, rfl⟩ := List.mem_iff_getElem.mp hd
    have heq : csp.domain n = csp.domains[n] := by
      simp [CSP.domain, List.getD_eq_getElem?_getD, List.getElem?_eq_getElem hn]
    rw [← heq]
    exact h n

theorem domainsNodup_revise {csp : CSP} (h : domainsNodup csp) (xi xj : Nat) :
    domainsNodup (csp.revise xi xj).1 := by
  rw [domainsNodup_iff]
  intro w
  exact (revise_domain_sublist csp xi xj w).nodup (domain_nodup_of h w)

/-! ### AC-3 lemmas -/

theorem ac3Fuel_cons (fuel : Nat) (csp : CSP) (xi xj : Nat) (Q : List Arc) :
    ac3Fuel (fuel + 1) csp ((xi, xj) :: Q) =
      if (csp.revise xi xj).2 then
        if ((csp.revise xi xj).1.domain xi).isEmpty then ((csp.revise xi xj).1, false)
        else
          ac3Fuel fuel (csp.revise xi xj).1
            (Q ++ (((csp.revise xi xj).1.neighbors_of xi).filter (fun xk => xk ≠ xj)).map
              (fun xk => (xk, xi)))
      else ac3Fuel fuel (csp.revise xi xj).1 Q := rfl

theorem ac3Fuel_allowed :
    ∀ (fuel : Nat) (csp : CSP) (Q : List Arc),
      (ac3Fuel fuel csp Q).1.allowed = csp.allowed := by
  intro fuel
  induction fuel with
  | zero => intro csp Q; rfl
  | succ fuel ih =>
    intro csp Q
    match Q with
    | [] => rfl
    | (xi, xj) :: Q =>
      rw [ac3Fuel_cons]
      by_cases hrem : (csp.revise xi xj).2 = true
      · rw [if_pos hrem]
        by_cases hemp : ((csp.revise xi xj).1.domain xi).isEmpty = true
        · rw [if_pos hemp]; exact revise_allowed csp xi xj
        · rw [if_neg hemp, ih]; exact revise_allowed csp xi xj
      · rw [if_neg hrem, ih]; exact revise_allowed csp xi xj

theorem ac3Fuel_neighbors :
    ∀ (fuel : Nat) (csp : CSP) (Q : List Arc),
      (ac3Fuel fuel csp Q).1.neighbors = csp.neighbors := by
  intro fuel
  induction fuel with
  | zero => intro csp Q; rfl
  | succ fuel ih =>
    intro csp Q
    match Q with
    | [] => rfl
    | (xi, xj) :: Q =>
      rw [ac3Fuel_cons]
      by_cases hrem : (csp.revise xi xj).2 = true
      · rw [if_pos hrem]
        by_cases hemp : ((csp.revise xi xj).1.domain xi).isEmpty = true
        · rw [if_pos hemp]; exact revise_neighbors csp xi xj
        · rw [if_neg hemp, ih]; exact revise_neighbors csp xi xj
      · rw [if_neg hrem, ih]; exact revise_neighbors csp xi xj

theorem ac3Fuel_n_vars :
    ∀ (fuel : Nat) (csp : CSP) (Q : List Arc),
      (ac3Fuel fuel csp Q).1.n_vars = csp.n_vars := by
  intro fuel
  induction fuel with
  | zero => intro csp Q; rfl
  | succ fuel ih =>
    intro csp Q
    match Q with
    | [] => rfl
    | (xi, xj) :: Q =>
      rw [ac3Fuel_cons]
      by_cases hrem : (csp.revise xi xj).2 = true
      · rw [if_pos hrem]
        by_cases hemp : ((csp.revise xi xj).1.domain xi).isEmpty = true
        · rw [if_pos hemp]; exact revise_n_vars csp xi xj
        · rw [if_neg hemp, ih]; exact revise_n_vars csp xi xj
      · rw [if_neg hrem, ih]; exact revise_n_vars csp xi xj

theorem ac3Fuel_domain_sublist :
    ∀ (fuel : Nat) (csp : CSP) (Q : List Arc) (w : Nat),
      ((ac3Fuel fuel csp Q).1.domain w).Sublist (csp.domain w) := by
  intro fuel
  induction fuel with
  | zero => intro csp Q w; exact List.Sublist.refl _
  | succ fuel ih =>
    intro csp Q w
    match Q with
    | [] => exact List.Sublist.refl _
    | (xi, xj) :: Q =>
      rw [ac3Fuel_cons]
      by_cases hrem : (csp.revise xi xj).2 = true
      · rw [if_pos hrem]
        by_cases hemp : ((csp.revise xi xj).1.domain xi).isEmpty = true
        · rw [if_pos hemp]; exact revise_domain_sublist csp xi xj w
        · rw [if_neg hemp]
          exact (ih _ _ w).trans (revise_domain_sublist csp xi xj w)
      · rw [if_neg hrem]
        exact (ih _ _ w).trans (revise_domain_sublist csp xi xj w)

/-- Queue invariant of AC-3: every installed arc is either still queued or
currently consistent. -/
def QInv (csp : CSP) (Q : List Arc) : Prop :=
  ∀ e ∈ csp.allowed, e.1 ∈ Q ∨ cons1 csp e.1.1 e.1.2 e.2

/-- Soundness of the AC-3 loop for symmetric well-formed models: if the loop
reports success, the resulting model is locally arc consistent.  The queue
invariant is maintained across each `revise`; the arc `(xj, xi)` that the
source deliberately does not re-enqueue is covered by the symmetry of the
tables. -/
theorem ac3Fuel_sound :
    ∀ (fuel : Nat) (csp : CSP) (Q : List Arc) (out : CSP),
      keysNodup csp → arcsDistinct csp → nbCovers csp → domainsNodup csp →
      symmetricTables csp → QInv csp Q →
      ac3Fuel fuel csp Q = (out, true) → arcConsistent out := by
  intro fuel
  induction fuel with
  | zero =>
    intro csp Q out _ _ _ _ _ _ h
    exact absurd (congrArg Prod.snd h) (by simp [ac3Fuel])
  | succ fuel ih =>
    intro csp Q out hkeys hdis hnb hdnd hsym hqi hrun
    match Q with
    | [] =>
      have hout : csp = out := congrArg Prod.fst hrun
      subst hout
      intro e he
      rcases hqi e he with h | h
      · exact absurd h (List.not_mem_nil _)
      · exact h
    | (xi, xj) :: Q =>
      rw [ac3Fuel_cons] at hrun
      by_cases hrem : (csp.revise xi xj).2 = true
      · rw [if_pos hrem] at hrun
        obtain ⟨t0, ht0⟩ := revise_true_lookup hrem
        have hmem0 : ((xi, xj), t0) ∈ csp.allowed := mem_of_lookupArc ht0
        have hxine : xi ≠ xj := hdis _ hmem0
        obtain ⟨hdom_eq, _, hother⟩ := revise_spec hxine ht0 (domain_nodup_of hdnd xi)
        by_cases hemp : ((csp.revise xi xj).1.domain xi).isEmpty = true
        · rw [if_pos hemp] at hrun
          exact absurd (congrArg Prod.snd hrun) (by simp)
        · rw [if_neg hemp] at hrun
          have hall1 : (csp.revise xi xj).1.allowed = csp.allowed := revise_allowed csp xi xj
          have hnbs1 : (csp.revise xi xj).1.neighbors = csp.neighbors := revise_neighbors csp xi xj
          refine ih (csp.revise xi xj).1 _ out ?_ ?_ ?_ ?_ ?_ ?_ hrun
          · unfold keysNodup; rw [hall1]; exact hkeys
          · intro e he; rw [hall1] at he; exact hdis e he
          · intro e he
            rw [hall1] at he
            have := hnb e he
            unfold CSP.neighbors_of at this ⊢
            rw [hnbs1]
            exact this
          · exact domainsNodup_revise hdnd xi xj
          · intro e he
            rw [hall1] at he
            have h1 := (hsym e he).1
            have h2 := (hsym e he).2
            rw [lookupArc_congr hall1]
            exact ⟨h1, h2⟩
          · -- queue invariant after the revise
            intro e he
            rw [hall1] at he
            rcases hqi e he with hq | hc
            · rcases List.mem_cons.mp hq with hEq | hq2
              · -- the head arc itself: revise just made it consistent
                right
                have hxi1 : e.1.1 = xi := by rw [hEq]
                have hxj2 : e.1.2 = xj := by rw [hEq]
                have ht : lookupArc csp e.1.1 e.1.2 = some e.2 := lookupArc_of_mem hkeys he
                rw [hxi1, hxj2, ht0] at ht
                have ht20 : e.2 = t0 := (Option.some.inj ht).symm
                intro vi hvi
                rw [hxi1, hdom_eq] at hvi
                obtain ⟨hviD, hsup⟩ := List.mem_filter.mp hvi
                obtain ⟨vj, hvjD, hcont⟩ := List.any_eq_true.mp hsup
                refine ⟨vj, ?_, ?_⟩
                · rw [hxj2, hother xj (Ne.symm hxine)]
                  exact hvjD
                · rw [ht20]
                  exact List.elem_iff.mp hcont
              · exact Or.inl (List.mem_append_left _ hq2)
            · by_cases hb : e.1.2 = xi
              · by_cases ha : e.1.1 = xj
                · -- reverse of the head arc: covered by symmetry, not re-enqueued
                  right
                  intro vb hvb
                  have hvb2 : vb ∈ csp.domain e.1.1 := by
                    rw [ha] at hvb ⊢
                    rw [hother xj (Ne.symm hxine)] at hvb
                    exact hvb
                  obtain ⟨va, hva, hpair⟩ := hc vb hvb2
                  have hswap := (hsym e he).1 (vb, va) hpair
                  rw [hb, ha, ht0] at hswap
                  simp only [Option.getD_some] at hswap
                  refine ⟨va, ?_, hpair⟩
                  rw [hb, hdom_eq]
                  apply List.mem_filter.mpr
                  refine ⟨by rw [hb] at hva; exact hva, ?_⟩
                  apply List.any_eq_true.mpr
                  refine ⟨vb, ?_, List.elem_iff.mpr hswap⟩
                  rw [ha] at hvb2
                  exact hvb2
                · -- pruned target, different source: the arc is re-enqueued
                  left
                  refine List.mem_append_right _ ?_
                  apply List.mem_map.mpr
                  refine ⟨e.1.1, ?_, ?_⟩
                  · apply List.mem_filter.mpr
                    constructor
                    · have := hnb e he
                      rw [hb] at this
                      unfold CSP.neighbors_of at this ⊢
                      rw [hnbs1]
                      exact this
                    · simpa using ha
                  · rw [← hb]
              · -- target domain untouched: consistency is preserved
                right
                intro vi hvi
                have hvi2 : vi ∈ csp.domain e.1.1 :=
                  (revise_domain_sublist csp xi xj e.1.1).subset hvi
                obtain ⟨vj, hvj, hp⟩ := hc vi hvi2
                refine ⟨vj, ?_, hp⟩
                rw [hother e.1.2 hb]
                exact hvj
      · rw [if_neg hrem] at hrun
        have hstate : (csp.revise xi xj).1 = csp :=
          revise_false_state (Bool.eq_false_iff.mpr hrem)
        rw [hstate] at hrun
        refine ih csp Q out hkeys hdis hnb hdnd hsym ?_ hrun
        intro e he
        rcases hqi e he with hq | hc
        · rcases List.mem_cons.mp hq with hEq | hq2
          · -- the head arc was found consistent (no removal)
            right
            have hxi1 : e.1.1 = xi := by rw [hEq]
            have hxj2 : e.1.2 = xj := by rw [hEq]
            have hne2 : xi ≠ xj := by rw [← hxi1, ← hxj2]; exact hdis e he
            have ht : lookupArc csp xi xj = some e.2 := by
              rw [← hxi1, ← hxj2]; exact lookupArc_of_mem hkeys he
            obtain ⟨_, hflag, _⟩ := revise_spec hne2 ht (domain_nodup_of hdnd xi)
            have hfalse : (csp.revise xi xj).2 = false := Bool.eq_false_iff.mpr hrem
            rw [hfalse] at hflag
            intro vi hvi
            rw [hxi1] at hvi
            have hnu := List.any_eq_false.mp hflag.symm vi hvi
            have hnu2 : unsupported e.2 (csp.domain xj) vi = false :=
              Bool.eq_false_iff.mpr hnu
            unfold unsupported at hnu2
            have hany : ((csp.domain xj).any (fun vj => e.2.contains (vi, vj))) = true := by
              cases hcase : ((csp.domain xj).any (fun vj => e.2.contains (vi, vj))) with
              | true => rfl
              | false => rw [hcase] at hnu2; cases hnu2
            obtain ⟨vj, hvj, hcont⟩ := List.any_eq_true.mp hany
            exact ⟨vj, by rw [hxj2]; exact hvj, List.elem_iff.mp hcont⟩
          · exact Or.inl hq2
        · exact Or.inr hc

/-- Soundness of `ac3` for symmetric well-formed models. -/
theorem ac3_sound {csp out : CSP}
    (hkeys : keysNodup csp) (hdis : arcsDistinct csp) (hnb : nbCovers csp)
    (hdnd : domainsNodup csp) (hsym : symmetricTables csp)
    (hrun : ac3 csp = (out, true)) : arcConsistent out := by
  refine ac3Fuel_sound _ csp csp.arcs out hkeys hdis hnb hdnd hsym ?_ hrun
  intro e he
  exact Or.inl (List.mem_map_of_mem (·.1) he)

/-- A run of the AC-3 loop over a queue of arcs that are all already
consistent changes nothing and succeeds, provided the fuel exceeds the queue
length. -/
theorem ac3Fuel_no_change :
    ∀ (Q : List Arc) (fuel : Nat) (csp : CSP),
      (∀ i j t, (i, j) ∈ Q → lookupArc csp i j = some t → cons1 csp i j t) →
      Q.length < fuel →
      ac3Fuel fuel csp Q = (csp, true) := by
  intro Q
  induction Q with
  | nil =>
    intro fuel csp _ hf
    match fuel, hf with
    | fuel + 1, _ => rfl
  | cons hd rest ih =>
    intro fuel csp hcons hf
    obtain ⟨xi, xj⟩ := hd
    match fuel, hf with
    | fuel + 1, hf =>
      rw [ac3Fuel_cons]
      have hrev : csp.revise xi xj = (csp, false) := by
        cases hlk : lookupArc csp xi xj with
        | none => exact revise_of_lookup_none hlk
        | some t =>
          exact revise_of_cons1 hlk (hcons xi xj t (List.mem_cons_self _ _) hlk)
      rw [hrev, if_neg (by simp : ¬(((csp, false) : CSP × Bool).2 = true))]
      refine ih fuel csp ?_ ?_
      · intro i j t hq hlk
        exact hcons i j t (List.mem_cons_of_mem _ hq) hlk
      · exact Nat.lt_of_succ_lt_succ hf

/-- Running `ac3` on an arc-consistent model with duplicate-free table keys
returns the model unchanged with success. -/
theorem ac3_no_change {csp : CSP}
    (hcons : arcConsistent csp) : ac3 csp = (csp, true) := by
  apply ac3Fuel_no_change
  · intro i j t _ hlk
    exact hcons _ (mem_of_lookupArc hlk)
  · unfold ac3Bound
    omega

/-! ### Claim C3: behaviour of revise -/

theorem unsupported_true_iff (t : List Pair) (Dj : List Int) (vi : Int) :
    unsupported t Dj vi = true ↔ ∀ vj ∈ Dj, (vi, vj) ∉ t := by
  unfold unsupported
  cases hcase : (Dj.any (fun vj => t.contains (vi, vj))) with
  | true =>
    simp only [Bool.not_true]
    constructor
    · intro h; cases h
    · intro h
      obtain ⟨vj, hvj, hc⟩ := List.any_eq_true.mp hcase
      exact absurd (List.elem_iff.mp hc) (h vj hvj)
  | false =>
    simp only [Bool.not_false]
    constructor
    · intro _ vj hvj hp
      exact (List.any_eq_false.mp hcase vj hvj) (List.elem_iff.mpr hp)
    · intro _; trivial

/-- C3 (corrected: the claim as stated fails when the installed arc is a self
arc `(i, i)`, which `add_all_diff_edge` can produce; then the source and
target domain are one and the same set and revising can change the domain of
`j = i`, see `revise_self_arc_changes_target_domain`.  Amended by requiring
the two endpoints to be distinct).  For a model with an installed arc
`(i, j)`, `i ≠ j`, and duplicate-free domain of `i`: `revise(i, j)` removes
from the domain of `i` exactly the values with no support in the current
domain of `j`, leaves the domain of `i` unchanged when every value has
support, leaves every other domain (in particular the domain of `j`), the
compatibility tables and the neighbor cache unchanged, and returns true iff
at least one value was removed; when no entry for `(i, j)` exists it changes
nothing and returns false. -/
theorem revise_removes_exactly_unsupported (csp : CSP) (i j : Nat) (hne : i ≠ j)
    (hnd : (csp.domain i).Nodup) :
    (∀ t, lookupArc csp i j = some t →
      ((csp.revise i j).1.domain i =
        (csp.domain i).filter (fun vi => (csp.domain j).any (fun vj => t.contains (vi, vj))) ∧
      ((∀ vi ∈ csp.domain i, ∃ vj ∈ csp.domain j, (vi, vj) ∈ t) →
        (csp.revise i j).1.domain i = csp.domain i) ∧
      (∀ w, w ≠ i → (csp.revise i j).1.domain w = csp.domain w) ∧
      (csp.revise i j).1.allowed = csp.allowed ∧
      (csp.revise i j).1.neighbors = csp.neighbors ∧
      ((csp.revise i j).2 = true ↔ ∃ vi ∈ csp.domain i, ∀ vj ∈ csp.domain j, (vi, vj) ∉ t))) ∧
    (lookupArc csp i j = none → csp.revise i j = (csp, false)) := by
  refine ⟨?_, fun h => revise_of_lookup_none h⟩
  intro t ht
  obtain ⟨h1, h2, h3⟩ := revise_spec hne ht hnd
  refine ⟨h1, ?_, h3, revise_allowed csp i j, revise_neighbors csp i j, ?_⟩
  · intro hall
    rw [h1]
    apply List.filter_eq_self.mpr
    intro vi hvi
    obtain ⟨vj, hvj, hp⟩ := hall vi hvi
    exact List.any_eq_true.mpr ⟨vj, hvj, List.elem_iff.mpr hp⟩
  · rw [h2]
    constructor
    · intro hany
      obtain ⟨vi, hvi, hu⟩ := List.any_eq_true.mp hany
      exact ⟨vi, hvi, (unsupported_true_iff t _ vi).mp hu⟩
    · rintro ⟨vi, hvi, hns⟩
      exact List.any_eq_true.mpr ⟨vi, hvi, (unsupported_true_iff t _ vi).mpr hns⟩

/-- Witness for `revise_removes_exactly_unsupported` at the concrete
symmetric model. -/
theorem revise_removes_exactly_unsupported_witness :
    ((0 : Nat) ≠ 1 ∧ (symModel.domain 0).Nodup) ∧
    ((∀ t, lookupArc symModel 0 1 = some t →
      ((symModel.revise 0 1).1.domain 0 =
        (symModel.domain 0).filter
          (fun vi => (symModel.domain 1).any (fun vj => t.contains (vi, vj))) ∧
      ((∀ vi ∈ symModel.domain 0, ∃ vj ∈ symModel.domain 1, (vi, vj) ∈ t) →
        (symModel.revise 0 1).1.domain 0 = symModel.domain 0) ∧
      (∀ w, w ≠ 0 → (symModel.revise 0 1).1.domain w = symModel.domain w) ∧
      (symModel.revise 0 1).1.allowed = symModel.allowed ∧
      (symModel.revise 0 1).1.neighbors = symModel.neighbors ∧
      ((symModel.revise 0 1).2 = true ↔
        ∃ vi ∈ symModel.domain 0, ∀ vj ∈ symModel.domain 1, (vi, vj) ∉ t))) ∧
    (lookupArc symModel 0 1 = none → symModel.revise 0 1 = (symModel, false))) :=
  ⟨⟨by decide, by decide⟩,
   revise_removes_exactly_unsupported symModel 0 1 (by decide) (by decide)⟩

/-- Counterexample to C3 as stated: through the public interface,
`add_all_diff_edge(0, 0)` installs an arc `(0, 0)` (with an empty table,
since no pair of distinct values exists over the singleton domain `{1}`), and
`revise(0, 0)` then removes a value from the domain of `j = 0`, contradicting
that revise leaves the domain of `j` unchanged. -/
theorem revise_self_arc_changes_target_domain :
    buildSelfArc1.toOption = some selfArc1 ∧
    lookupArc selfArc1 0 0 = some [] ∧
    selfArc1.domain 0 = [1] ∧
    (selfArc1.revise 0 0).1.domain 0 = [] ∧
    (selfArc1.revise 0 0).2 = true := by decide

/-! ### Claim C2: what a successful AC-3 run guarantees -/

/-- C2 (corrected: for arbitrary, possibly asymmetric, directed tables the
claim is false — `ac3_success_without_arc_consistency` exhibits a reachable
model on which `ac3` reports success while an arc is left inconsistent,
precisely because the source re-enqueues only the arcs `(xk, xi)` with
`xk ≠ xj`.  Amended by requiring the directed tables to be symmetric, the
shape produced by `add_symmetric_binary_constraint` and `add_all_diff_edge`).
For a well-formed model with symmetric tables, if `ac3` returns success then
the resulting model is locally arc consistent: every value left in the domain
of the source of any installed arc has a support in the current domain of the
target. -/
theorem ac3_success_implies_arc_consistency_symmetric (csp out : CSP)
    (hkeys : keysNodup csp) (hdis : arcsDistinct csp) (hnb : nbCovers csp)
    (hdnd : domainsNodup csp) (hsym : symmetricTables csp)
    (hrun : ac3 csp = (out, true)) : arcConsistent out :=
  ac3_sound hkeys hdis hnb hdnd hsym hrun

/-- Witness for `ac3_success_implies_arc_consistency_symmetric` at the
concrete symmetric model. -/
theorem ac3_success_implies_arc_consistency_symmetric_witness :
    (keysNodup symModel ∧ arcsDistinct symModel ∧ nbCovers symModel ∧
     domainsNodup symModel ∧ symmetricTables symModel ∧
     ac3 symModel = (symModel, true)) ∧
    arcConsistent symModel :=
  ⟨⟨by decide, by decide, by decide, by decide, by decide, by decide⟩,
   ac3_success_implies_arc_consistency_symmetric symModel symModel
     (by decide) (by decide) (by decide) (by decide) (by decide) (by decide)⟩

/-- Counterexample to C2 as stated: an asymmetric pair of directed tables,
installed through `add_binary_constraint` one direction at a time.  `ac3`
reports success, yet in the resulting model the arc `(0, 1)` is inconsistent:
value 1 of variable 0 has no support left in the domain of variable 1. -/
theorem ac3_success_without_arc_consistency :
    buildAsym.toOption = some asymModel ∧
    (ac3 asymModel).2 = true ∧
    lookupArc (ac3 asymModel).1 0 1 = some [(1, 2)] ∧
    (ac3 asymModel).1.domain 0 = [1] ∧
    (ac3 asymModel).1.domain 1 = [3] ∧
    ¬ arcConsistent (ac3 asymModel).1 := by decide

/-! ### Claim C6: idempotence of AC-3 -/

/-- C6 (corrected: as stated the claim fails, on the same mechanism as C2 —
after a successful run on an asymmetric model a second run can remove further
values and even fail, see `ac3_second_run_prunes`.  Amended by requiring the
tables to be symmetric, as produced by the symmetric installation
operations).  For a well-formed model with symmetric tables: if `ac3` returns
success, an immediate second call removes no value from any domain (it
returns the very same model) and also returns success. -/
theorem ac3_idempotent_symmetric (csp csp1 : CSP)
    (hkeys : keysNodup csp) (hdis : arcsDistinct csp) (hnb : nbCovers csp)
    (hdnd : domainsNodup csp) (hsym : symmetricTables csp)
    (hrun : ac3 csp = (csp1, true)) : ac3 csp1 = (csp1, true) :=
  ac3_no_change (ac3_sound hkeys hdis hnb hdnd hsym hrun)

/-- Witness for `ac3_idempotent_symmetric` at the concrete symmetric model. -/
theorem ac3_idempotent_symmetric_witness :
    (keysNodup symModel ∧ arcsDistinct symModel ∧ nbCovers symModel ∧
     domainsNodup symModel ∧ symmetricTables symModel ∧
     ac3 symModel = (symModel, true)) ∧
    ac3 symModel = (symModel, true) :=
  ⟨⟨by decide, by decide, by decide, by decide, by decide, by decide⟩,
   ac3_idempotent_symmetric symModel symModel
     (by decide) (by decide) (by decide) (by decide) (by decide) (by decide)⟩

/-- Counterexample to C6 as stated: on the asymmetric two-variable model the
first `ac3` run succeeds, but an immediate second run removes the last value
of the domain of variable 0 and reports failure. -/
theorem ac3_second_run_prunes :
    buildAsym.toOption = some asymModel ∧
    (ac3 asymModel).2 = true ∧
    (ac3 asymModel).1.domain 0 = [1] ∧
    (ac3 (ac3 asymModel).1).2 = false ∧
    (ac3 (ac3 asymModel).1).1.domain 0 = [] := by decide

/-! ### Dict-update and neighbor-cache lemmas -/

theorem any_key_iff (al : List (Arc × List Pair)) (k : Arc) :
    al.any (fun e => e.1 = k) = true ↔ k ∈ al.map (·.1) := by
  rw [List.any_eq_true]
  constructor
  · rintro ⟨e, he, hp⟩
    simp only [decide_eq_true_eq] at hp
    rw [← hp]
    exact List.mem_map_of_mem (·.1) he
  · intro hk
    obtain ⟨e, he, hp⟩ := List.mem_map.mp hk
    exact ⟨e, he, by simp [hp]⟩

theorem keys_setArc (al : List (Arc × List Pair)) (k : Arc) (t : List Pair) :
    (setArc al k t).map (·.1) =
      if al.any (fun e => e.1 = k) then al.map (·.1) else al.map (·.1) ++ [k] := by
  unfold setArc
  by_cases h : al.any (fun e => e.1 = k) = true
  · rw [if_pos h, if_pos h, List.map_map]
    apply List.map_congr_left
    intro e _
    by_cases he : e.1 = k
    · simp [he]
    · simp [he]
  · rw [if_neg h, if_neg h, List.map_append]
    rfl

theorem hasKey_setArc (al : List (Arc × List Pair)) (k k2 : Arc) (t : List Pair) :
    k2 ∈ (setArc al k t).map (·.1) ↔ k2 ∈ al.map (·.1) ∨ k2 = k := by
  rw [keys_setArc]
  by_cases h : al.any (fun e => e.1 = k) = true
  · rw [if_pos h]
    constructor
    · exact Or.inl
    · rintro (hk | rfl)
      · exact hk
      · exact (any_key_iff al k2).mp h
  · rw [if_neg h]
    simp [List.mem_append]

theorem find?_map_setArc_of_any (k : Arc) (t : List Pair) :
    ∀ (al : List (Arc × List Pair)), al.any (fun e => e.1 = k) = true →
      (al.map (fun e => if e.1 = k then (k, t) else e)).find? (fun e => e.1 = k) =
        some (k, t) := by
  intro al
  induction al with
  | nil => intro h; cases h
  | cons a rest ih =>
    intro h
    by_cases ha : a.1 = k
    · rw [List.map_cons, if_pos ha]
      exact List.find?_cons_of_pos _ (by simp)
    · rw [List.map_cons, if_neg ha]
      rw [List.find?_cons_of_neg _ (by simpa using ha)]
      apply ih
      have := List.any_eq_true.mp h
      obtain ⟨e, he, hp⟩ := this
      rcases List.mem_cons.mp he with rfl | he2
      · exact absurd (by simpa using hp) ha
      · exact List.any_eq_true.mpr ⟨e, he2, hp⟩

theorem find?_append_none (k : Arc) (t : List Pair) :
    ∀ (al : List (Arc × List Pair)), al.any (fun e => e.1 = k) = false →
      (al ++ [(k, t)]).find? (fun e => e.1 = k) = some (k, t) := by
  intro al
  induction al with
  | nil =>
    intro _
    exact List.find?_cons_of_pos _ (by simp)
  | cons a rest ih =>
    intro h
    rw [List.cons_append]
    have ha : ¬(a.1 = k) := by
      intro hEq
      exact (List.any_eq_false.mp h a (List.mem_cons_self a rest)) (by simpa using hEq)
    rw [List.find?_cons_of_neg _ (by simpa using ha)]
    exact ih (List.any_eq_false.mpr
      (fun e he => List.any_eq_false.mp h e (List.mem_cons_of_mem a he)))

theorem find?_setArc_self (al : List (Arc × List Pair)) (k : Arc) (t : List Pair) :
    (setArc al k t).find? (fun e => e.1 = k) = some (k, t) := by
  unfold setArc
  by_cases h : al.any (fun e => e.1 = k) = true
  · rw [if_pos h]
    exact find?_map_setArc_of_any k t al h
  · rw [if_neg h]
    exact find?_append_none k t al (Bool.eq_false_iff.mpr h)

theorem find?_map_setArc_ne (k k2 : Arc) (t : List Pair) (hne : k2 ≠ k) :
    ∀ (al : List (Arc × List Pair)),
      (al.map (fun e => if e.1 = k then (k, t) else e)).find? (fun e => e.1 = k2) =
        al.find? (fun e => e.1 = k2) := by
  intro al
  induction al with
  | nil => rfl
  | cons a rest ih =>
    rw [List.map_cons]
    by_cases ha : a.1 = k
    · rw [if_pos ha]
      rw [List.find?_cons_of_neg _ (by simp only [decide_eq_true_eq]; exact Ne.symm hne)]
      rw [List.find?_cons_of_neg _ (by
        simp only [decide_eq_true_eq, ha]
        exact Ne.symm hne)]
      exact ih
    · rw [if_neg ha]
      by_cases hp : a.1 = k2
      · rw [List.find?_cons_of_pos _ (by simpa using hp),
          List.find?_cons_of_pos _ (by simpa using hp)]
      · rw [List.find?_cons_of_neg _ (by simpa using hp),
          List.find?_cons_of_neg _ (by simpa using hp)]
        exact ih

theorem find?_append_ne (k k2 : Arc) (t : List Pair) (hne : k2 ≠ k) :
    ∀ (al : List (Arc × List Pair)),
      (al ++ [(k, t)]).find? (fun e => e.1 = k2) = al.find? (fun e => e.1 = k2) := by
  intro al
  induction al with
  | nil =>
    simp only [List.nil_append]
    rw [List.find?_cons_of_neg _ (by simp only [decide_eq_true_eq]; exact Ne.symm hne)]
  | cons a rest ih =>
    rw [List.cons_append]
    by_cases hp : a.1 = k2
    · rw [List.find?_cons_of_pos _ (by simpa using hp),
        List.find?_cons_of_pos _ (by simpa using hp)]
    · rw [List.find?_cons_of_neg _ (by simpa using hp),
        List.find?_cons_of_neg _ (by simpa using hp)]
      exact ih

theorem find?_setArc_ne (al : List (Arc × List Pair)) (k k2 : Arc) (t : List Pair)
    (hne : k2 ≠ k) :
    (setArc al k t).find? (fun e => e.1 = k2) = al.find? (fun e => e.1 = k2) := by
  unfold setArc
  by_cases h : al.any (fun e => e.1 = k) = true
  · rw [if_pos h]
    exact find?_map_setArc_ne k k2 t hne al
  · rw [if_neg h]
    exact find?_append_ne k k2 t hne al

theorem mem_addToSet (l : List Nat) (x y : Nat) :
    y ∈ addToSet l x ↔ y ∈ l ∨ y = x := by
  unfold addToSet
  by_cases h : x ∈ l
  · rw [if_pos h]
    constructor
    · exact Or.inl
    · rintro (hy | rfl)
      · exact hy
      · exact h
  · rw [if_neg h]
    simp [List.mem_append]

theorem getD_addNbr_self (ns : List (List Nat)) (i j : Nat) (hi : i < ns.length) :
    (addNbr ns i j).getD i [] = addToSet (ns.getD i []) j := by
  unfold addNbr
  simp [List.getD_eq_getElem?_getD, List.getElem?_set_self hi]

theorem getD_addNbr_ne (ns : List (List Nat)) (i j w : Nat) (hw : w ≠ i) :
    (addNbr ns i j).getD w [] = ns.getD w [] := by
  unfold addNbr
  simp [List.getD_eq_getElem?_getD, List.getElem?_set_ne (Ne.symm hw)]

theorem length_addNbr (ns : List (List Nat)) (i j : Nat) :
    (addNbr ns i j).length = ns.length := by
  unfold addNbr
  exact List.length_set ns i _

/-! ### Claim C8: the constructor -/

/-- C8: construction fails exactly when the variable count is below one, the
domain count mismatches it, or a supplied domain is empty; otherwise it
succeeds and yields the supplied domains as duplicate-free sets, an empty
compatibility table and an empty neighbor cache.  Failure is an `Except`
error, so no partial model value is produced. -/
theorem mkCSP_spec (n : Int) (ds : List (List Int)) :
    ((n < 1 ∨ (ds.length : Int) ≠ n ∨ (∃ d ∈ ds, d = [])) →
      ∃ msg, mkCSP n ds = .error msg) ∧
    (1 ≤ n → (ds.length : Int) = n → (∀ d ∈ ds, d ≠ []) →
      ∃ csp, mkCSP n ds = .ok csp ∧
        csp.n_vars = n.toNat ∧
        csp.domains.length = ds.length ∧
        (∀ k, (hk : k < ds.length) →
          (csp.domain k).Nodup ∧ (∀ x, x ∈ csp.domain k ↔ x ∈ ds[k])) ∧
        csp.allowed = [] ∧
        csp.neighbors = List.replicate n.toNat []) := by
  constructor
  · intro h
    unfold mkCSP
    by_cases h1 : n < 1
    · rw [if_pos h1]; exact ⟨_, rfl⟩
    · rw [if_neg h1]
      by_cases h2 : (ds.length : Int) ≠ n
      · rw [if_pos h2]; exact ⟨_, rfl⟩
      · rw [if_neg h2]
        have h3 : ∃ d ∈ ds, d = [] := by
          rcases h with h | h | h
          · exact absurd h h1
          · exact absurd h h2
          · exact h
        have hany : ds.any (fun d => d.isEmpty) = true := by
          obtain ⟨d, hd, rfl⟩ := h3
          exact List.any_eq_true.mpr ⟨[], hd, rfl⟩
        rw [if_pos hany]
        exact ⟨_, rfl⟩
  · intro hn hlen hne
    unfold mkCSP
    rw [if_neg (by omega : ¬ n < 1), if_neg (by rw [hlen]; exact fun h => h rfl)]
    have hany : ds.any (fun d => d.isEmpty) = false := by
      apply List.any_eq_false.mpr
      intro d hd
      simp [List.isEmpty_iff, hne d hd]
    rw [if_neg (by simp [hany])]
    refine ⟨_, rfl, rfl, by simp, ?_, rfl, rfl⟩
    intro k hk
    have hdom : (CSP.mk n.toNat (ds.map List.dedup) [] (List.replicate n.toNat [])).domain k
        = (ds[k]).dedup := by
      simp [CSP.domain, List.getD_eq_getElem?_getD, List.getElem?_map,
        List.getElem?_eq_getElem hk]
    rw [hdom]
    exact ⟨List.nodup_dedup _, fun x => List.mem_dedup⟩

/-- Witness for `mkCSP_spec`: a failing construction (variable count zero)
and a succeeding one with a duplicate in a supplied domain. -/
theorem mkCSP_spec_witness :
    (∃ msg, mkCSP 0 [] = .error msg) ∧
    (∃ csp, mkCSP 2 [[1, 1, 2], [3]] = .ok csp ∧
      csp.n_vars = (2 : Int).toNat ∧
      csp.domains.length = [[1, 1, 2], [3]].length ∧
      (∀ k, (hk : k < ([[1, 1, 2], [3]] : List (List Int)).length) →
        (csp.domain k).Nodup ∧
        (∀ x, x ∈ csp.domain k ↔ x ∈ ([[1, 1, 2], [3]] : List (List Int))[k])) ∧
      csp.allowed = [] ∧
      csp.neighbors = List.replicate (2 : Int).toNat []) :=
  ⟨(mkCSP_spec 0 []).1 (Or.inl (by decide)),
   (mkCSP_spec 2 [[1, 1, 2], [3]]).2 (by decide) (by decide) (by decide)⟩

/-! ### Claim C5: self-referential constraint installation -/

/-- C5 (corrected: the claim holds for `add_binary_constraint` and
`add_symmetric_binary_constraint`, which raise on `i == j` before touching
the model, but it fails for `add_all_diff_edge`, which performs no such check
and installs a self arc `(i, i)` together with a neighbor-cache entry, see
`add_all_diff_edge_accepts_self_loop`).  The two checked operations fail with
an error on `i == j` (the error value carries no model, so nothing is
installed); `add_all_diff_edge` with `i == j` in range succeeds and installs
a table entry for `(i, i)` and a self neighbor. -/
theorem self_constraint_rejection (csp : CSP) (i : Nat) (pairs rel : List Pair) :
    (∃ msg, csp.add_binary_constraint i i pairs = .error msg) ∧
    (∃ msg, csp.add_symmetric_binary_constraint i i rel = .error msg) ∧
    (i < csp.n_vars → csp.neighbors.length = csp.n_vars →
      ∃ csp2, csp.add_all_diff_edge i i = .ok csp2 ∧
        lookupArc csp2 i i =
          some ((prodNe (csp.domain i) (csp.domain i)).map (fun p => (p.2, p.1))) ∧
        i ∈ csp2.neighbors_of i) := by
  refine ⟨⟨"Self-constraints should be expressed by shrinking the domain directly.", ?_⟩,
    ⟨"Self-constraints should be expressed by shrinking the domain directly.", ?_⟩, ?_⟩
  · rw [CSP.add_binary_constraint, if_pos rfl]
  · show (csp.add_binary_constraint i i rel.dedup).bind _ = _
    rw [CSP.add_binary_constraint, if_pos rfl]
    rfl
  · intro hi hlen
    rw [CSP.add_all_diff_edge, if_pos ⟨hi, hi⟩]
    refine ⟨_, rfl, ?_, ?_⟩
    · unfold lookupArc
      simp only
      rw [find?_setArc_self]
      rfl
    · unfold CSP.neighbors_of
      simp only
      have hlen2 : i < (addNbr csp.neighbors i i).length := by
        rw [length_addNbr, hlen]; exact hi
      rw [getD_addNbr_self _ _ _ hlen2]
      exact (mem_addToSet _ i i).mpr (Or.inr rfl)

/-- Witness for `self_constraint_rejection` at the concrete symmetric
model. -/
theorem self_constraint_rejection_witness :
    ((0 : Nat) < symModel.n_vars ∧ symModel.neighbors.length = symModel.n_vars) ∧
    ((∃ msg, symModel.add_binary_constraint 0 0 [] = .error msg) ∧
     (∃ msg, symModel.add_symmetric_binary_constraint 0 0 [] = .error msg) ∧
     (∃ csp2, symModel.add_all_diff_edge 0 0 = .ok csp2 ∧
        lookupArc csp2 0 0 =
          some ((prodNe (symModel.domain 0) (symModel.domain 0)).map (fun p => (p.2, p.1))) ∧
        (0 : Nat) ∈ csp2.neighbors_of 0)) := by
  refine ⟨⟨by decide, by decide⟩, ?_⟩
  have h := self_constraint_rejection symModel 0 [] []
  exact ⟨h.1, h.2.1, h.2.2 (by decide) (by decide)⟩

/-- Counterexample to C5 as stated: `add_all_diff_edge(0, 0)` on a one
variable model with domain `{1, 2}` raises no error; it installs the table
for the self arc `(0, 0)` and records variable 0 as its own neighbor. -/
theorem add_all_diff_edge_accepts_self_loop :
    buildSelfArc2.toOption = some selfArc2 ∧
    lookupArc selfArc2 0 0 = some [(2, 1), (1, 2)] ∧
    (0 : Nat) ∈ selfArc2.neighbors_of 0 := by decide

/-! ### Public operations as data, for invariant claims -/

/-- A public mutating operation on a model.  Constraint installation
operations carry their arguments; `rem` is `remove_from_domain` and `rev` is
`revise`. -/
inductive PubOp
  | bin (i j : Nat) (pairs : List Pair)
  | sym (i j : Nat) (rel : List Pair)
  | diff (i j : Nat)
  | rem (v : Nat) (x : Int)
  | rev (xi xj : Nat)
  deriving Repr, DecidableEq

/-- Whether the operation is one of the three constraint-installation
operations. -/
def PubOp.isInstall : PubOp → Bool
  | .bin _ _ _ => true
  | .sym _ _ _ => true
  | .diff _ _ => true
  | .rem _ _ => false
  | .rev _ _ => false

/-- Apply one public operation.  An operation that raises leaves the model
unchanged (in the source every raise happens before any mutation). -/
def applyPub (csp : CSP) (op : PubOp) : CSP :=
  match op with
  | .bin i j pairs => (csp.add_binary_constraint i j pairs).toOption.getD csp
  | .sym i j rel => (csp.add_symmetric_binary_constraint i j rel).toOption.getD csp
  | .diff i j => (csp.add_all_diff_edge i j).toOption.getD csp
  | .rem v x => (csp.remove_from_domain v x).1
  | .rev xi xj => (csp.revise xi xj).1

/-- Apply a sequence of public operations, left to right. -/
def applyPubs (ops : List PubOp) (csp : CSP) : CSP := ops.foldl applyPub csp

/-! ### Inversion of the installation operations -/

theorem add_binary_ok_inv {csp c : CSP} {i j : Nat} {pairs : List Pair}
    (h : csp.add_binary_constraint i j pairs = .ok c) :
    i ≠ j ∧ (i < csp.n_vars ∧ j < csp.n_vars) ∧
    c = { csp with
          allowed := setArc csp.allowed (i, j)
            ((pairs.filter (fun p =>
              decide (p.1 ∈ csp.domain i) && decide (p.2 ∈ csp.domain j))).dedup)
          neighbors := addNbr (addNbr csp.neighbors i j) j i } := by
  rw [CSP.add_binary_constraint] at h
  by_cases h1 : i = j
  · rw [if_pos h1] at h; cases h
  · rw [if_neg h1] at h
    by_cases h2 : i < csp.n_vars ∧ j < csp.n_vars
    · rw [if_pos h2] at h
      refine ⟨h1, h2, ?_⟩
      exact (Except.ok.inj h).symm
    · rw [if_neg h2] at h; cases h

theorem add_all_diff_ok_inv {csp c : CSP} {i j : Nat}
    (h : csp.add_all_diff_edge i j = .ok c) :
    (i < csp.n_vars ∧ j < csp.n_vars) ∧
    c = { csp with
          allowed := setArc (setArc csp.allowed (i, j) (prodNe (csp.domain i) (csp.domain j)))
            (j, i) ((prodNe (csp.domain i) (csp.domain j)).map (fun p => (p.2, p.1)))
          neighbors := addNbr (addNbr csp.neighbors i j) j i } := by
  rw [CSP.add_all_diff_edge] at h
  by_cases h2 : i < csp.n_vars ∧ j < csp.n_vars
  · rw [if_pos h2] at h
    exact ⟨h2, (Except.ok.inj h).symm⟩
  · rw [if_neg h2] at h; cases h

theorem add_symmetric_ok_inv {csp c : CSP} {i j : Nat} {rel : List Pair}
    (h : csp.add_symmetric_binary_constraint i j rel = .ok c) :
    ∃ c1, csp.add_binary_constraint i j rel.dedup = .ok c1 ∧
      c1.add_binary_constraint j i (rel.dedup.map (fun p => (p.2, p.1))) = .ok c := by
  have h2 : (csp.add_binary_constraint i j rel.dedup).bind
      (fun c1 => c1.add_binary_constraint j i (rel.dedup.map (fun p => (p.2, p.1)))) = .ok c := h
  cases hres : csp.add_binary_constraint i j rel.dedup with
  | error m => rw [hres] at h2; cases h2
  | ok c1 =>
    rw [hres] at h2
    exact ⟨c1, rfl, h2⟩

/-! ### Claim C7: the neighbor cache is the exact derived closure -/

/-- The compatibility table holds an entry keyed `k`. -/
abbrev hasKey (csp : CSP) (k : Arc) : Prop := k ∈ csp.allowed.map (·.1)

/-- The neighbor cache equals the exact derived closure of the compatibility
table. -/
def nbInv (csp : CSP) : Prop :=
  ∀ i j : Nat, (j ∈ csp.neighbors_of i ↔ i ∈ csp.neighbors_of j) ∧
    (j ∈ csp.neighbors_of i ↔ (hasKey csp (i, j) ∨ hasKey csp (j, i)))

theorem mem_addNbr_iff (ns : List (List Nat)) (i j : Nat) (hi : i < ns.length)
    (a b : Nat) :
    b ∈ (addNbr ns i j).getD a [] ↔ b ∈ ns.getD a [] ∨ (a = i ∧ b = j) := by
  by_cases ha : a = i
  · subst ha
    rw [getD_addNbr_self ns a j hi, mem_addToSet]
    simp
  · rw [getD_addNbr_ne ns i j a ha]
    simp [ha]

theorem mem_nb_double (ns : List (List Nat)) (i j : Nat) (hi : i < ns.length)
    (hj : j < ns.length) (a b : Nat) :
    b ∈ (addNbr (addNbr ns i j) j i).getD a [] ↔
      b ∈ ns.getD a [] ∨ (a = i ∧ b = j) ∨ (a = j ∧ b = i) := by
  rw [mem_addNbr_iff _ j i (by rw [length_addNbr]; exact hj) a b,
    mem_addNbr_iff ns i j hi a b]
  tauto

/-- Installing one directed arc `(i, j)` together with the double neighbor
update preserves the neighbor-cache invariant. -/
theorem nbInv_install (csp : CSP) (i j : Nat) (hi : i < csp.neighbors.length)
    (hj : j < csp.neighbors.length) (t : List Pair) (hinv : nbInv csp) :
    nbInv { csp with
            allowed := setArc csp.allowed (i, j) t,
            neighbors := addNbr (addNbr csp.neighbors i j) j i } := by
  intro a b
  constructor
  · show b ∈ (addNbr (addNbr csp.neighbors i j) j i).getD a [] ↔
        a ∈ (addNbr (addNbr csp.neighbors i j) j i).getD b []
    rw [mem_nb_double csp.neighbors i j hi hj a b,
      mem_nb_double csp.neighbors i j hi hj b a]
    have old1 : b ∈ csp.neighbors_of a ↔ a ∈ csp.neighbors_of b := (hinv a b).1
    unfold CSP.neighbors_of at old1
    tauto
  · show b ∈ (addNbr (addNbr csp.neighbors i j) j i).getD a [] ↔
        ((a, b) ∈ (setArc csp.allowed (i, j) t).map (·.1) ∨
         (b, a) ∈ (setArc csp.allowed (i, j) t).map (·.1))
    rw [mem_nb_double csp.neighbors i j hi hj a b,
      hasKey_setArc csp.allowed (i, j) (a, b) t,
      hasKey_setArc csp.allowed (i, j) (b, a) t]
    have old2 : b ∈ csp.neighbors_of a ↔ (hasKey csp (a, b) ∨ hasKey csp (b, a)) :=
      (hinv a b).2
    unfold CSP.neighbors_of hasKey at old2
    simp only [Prod.mk.injEq]
    tauto

/-- Installing the two directed arcs of `add_all_diff_edge` preserves the
neighbor-cache invariant. -/
theorem nbInv_install2 (csp : CSP) (i j : Nat) (hi : i < csp.neighbors.length)
    (hj : j < csp.neighbors.length) (t1 t2 : List Pair) (hinv : nbInv csp) :
    nbInv { csp with
            allowed := setArc (setArc csp.allowed (i, j) t1) (j, i) t2,
            neighbors := addNbr (addNbr csp.neighbors i j) j i } := by
  intro a b
  constructor
  · show b ∈ (addNbr (addNbr csp.neighbors i j) j i).getD a [] ↔
        a ∈ (addNbr (addNbr csp.neighbors i j) j i).getD b []
    rw [mem_nb_double csp.neighbors i j hi hj a b,
      mem_nb_double csp.neighbors i j hi hj b a]
    have old1 : b ∈ csp.neighbors_of a ↔ a ∈ csp.neighbors_of b := (hinv a b).1
    unfold CSP.neighbors_of at old1
    tauto
  · show b ∈ (addNbr (addNbr csp.neighbors i j) j i).getD a [] ↔
        ((a, b) ∈ (setArc (setArc csp.allowed (i, j) t1) (j, i) t2).map (·.1) ∨
         (b, a) ∈ (setArc (setArc csp.allowed (i, j) t1) (j, i) t2).map (·.1))
    rw [mem_nb_double csp.neighbors i j hi hj a b,
      hasKey_setArc (setArc csp.allowed (i, j) t1) (j, i) (a, b) t2,
      hasKey_setArc (setArc csp.allowed (i, j) t1) (j, i) (b, a) t2,
      hasKey_setArc csp.allowed (i, j) (a, b) t1,
      hasKey_setArc csp.allowed (i, j) (b, a) t1]
    have old2 : b ∈ csp.neighbors_of a ↔ (hasKey csp (a, b) ∨ hasKey csp (b, a)) :=
      (hinv a b).2
    unfold CSP.neighbors_of hasKey at old2
    simp only [Prod.mk.injEq]
    tauto

/-- Structural invariant carried through installation sequences. -/
def SInv (csp : CSP) : Prop := csp.neighbors.length = csp.n_vars ∧ nbInv csp

theorem SInv_applyPub_install {csp : CSP} {op : PubOp} (hop : op.isInstall = true)
    (h : SInv csp) : SInv (applyPub csp op) := by
  obtain ⟨hlen, hinv⟩ := h
  cases op with
  | rem v x => cases hop
  | rev xi xj => cases hop
  | bin i j pairs =>
    cases hres : csp.add_binary_constraint i j pairs with
    | error m =>
      have happ : applyPub csp (PubOp.bin i j pairs) = csp := by
        simp only [applyPub, hres, Except.toOption, Option.getD_none]
      rw [happ]; exact ⟨hlen, hinv⟩
    | ok c =>
      obtain ⟨_, ⟨hi, hj⟩, hc⟩ := add_binary_ok_inv hres
      have happ : applyPub csp (PubOp.bin i j pairs) = c := by
        simp only [applyPub, hres, Except.toOption, Option.getD_some]
      rw [happ, hc]
      refine ⟨?_, nbInv_install csp i j (by rw [hlen]; exact hi)
        (by rw [hlen]; exact hj) _ hinv⟩
      show (addNbr (addNbr csp.neighbors i j) j i).length = csp.n_vars
      rw [length_addNbr, length_addNbr, hlen]
  | diff i j =>
    cases hres : csp.add_all_diff_edge i j with
    | error m =>
      have happ : applyPub csp (PubOp.diff i j) = csp := by
        simp only [applyPub, hres, Except.toOption, Option.getD_none]
      rw [happ]; exact ⟨hlen, hinv⟩
    | ok c =>
      obtain ⟨⟨hi, hj⟩, hc⟩ := add_all_diff_ok_inv hres
      have happ : applyPub csp (PubOp.diff i j) = c := by
        simp only [applyPub, hres, Except.toOption, Option.getD_some]
      rw [happ, hc]
      refine ⟨?_, nbInv_install2 csp i j (by rw [hlen]; exact hi)
        (by rw [hlen]; exact hj) _ _ hinv⟩
      show (addNbr (addNbr csp.neighbors i j) j i).length = csp.n_vars
      rw [length_addNbr, length_addNbr, hlen]
  | sym i j rel =>
    cases hres : csp.add_symmetric_binary_constraint i j rel with
    | error m =>
      have happ : applyPub csp (PubOp.sym i j rel) = csp := by
        simp only [applyPub, hres, Except.toOption, Option.getD_none]
      rw [happ]; exact ⟨hlen, hinv⟩
    | ok c =>
      obtain ⟨c1, hres1, hres2⟩ := add_symmetric_ok_inv hres
      obtain ⟨_, ⟨hi, hj⟩, hc1⟩ := add_binary_ok_inv hres1
      obtain ⟨_, ⟨hj2, hi2⟩, hc⟩ := add_binary_ok_inv hres2
      have happ : applyPub csp (PubOp.sym i j rel) = c := by
        simp only [applyPub, hres, Except.toOption, Option.getD_some]
      have hS1 : SInv c1 := by
        rw [hc1]
        refine ⟨?_, nbInv_install csp i j (by rw [hlen]; exact hi)
          (by rw [hlen]; exact hj) _ hinv⟩
        show (addNbr (addNbr csp.neighbors i j) j i).length = csp.n_vars
        rw [length_addNbr, length_addNbr, hlen]
      obtain ⟨hlen1, hinv1⟩ := hS1
      rw [happ, hc]
      refine ⟨?_, nbInv_install c1 j i (by rw [hlen1]; exact hj2)
        (by rw [hlen1]; exact hi2) _ hinv1⟩
      show (addNbr (addNbr c1.neighbors j i) i j).length = c1.n_vars
      rw [length_addNbr, length_addNbr, hlen1]

theorem SInv_applyPubs_install :
    ∀ (ops : List PubOp), (∀ op ∈ ops, op.isInstall = true) →
      ∀ csp : CSP, SInv csp → SInv (applyPubs ops csp) := by
  intro ops
  induction ops with
  | nil => intro _ csp h; exact h
  | cons op rest ih =>
    intro hall csp h
    exact ih (fun o ho => hall o (List.mem_cons_of_mem op ho)) _
      (SInv_applyPub_install (hall op (List.mem_cons_self op rest)) h)

theorem getD_replicate_nil (k i : Nat) :
    (List.replicate k ([] : List Nat)).getD i [] = [] := by
  rw [List.getD_eq_getElem?_getD, List.getElem?_replicate]
  rcases Nat.lt_or_ge i k with h | h
  · simp [h]
  · simp [Nat.not_lt.mpr h]

theorem SInv_mkCSP {n : Int} {ds : List (List Int)} {csp0 : CSP}
    (hmk : mkCSP n ds = .ok csp0) : SInv csp0 := by
  rw [mkCSP] at hmk
  by_cases h1 : n < 1
  · rw [if_pos h1] at hmk; cases hmk
  · rw [if_neg h1] at hmk
    by_cases h2 : (ds.length : Int) ≠ n
    · rw [if_pos h2] at hmk; cases hmk
    · rw [if_neg h2] at hmk
      by_cases h3 : ds.any (fun d => d.isEmpty) = true
      · rw [if_pos h3] at hmk; cases hmk
      · rw [if_neg h3] at hmk
        obtain rfl := (Except.ok.inj hmk).symm
        constructor
        · simp
        · intro a b
          unfold CSP.neighbors_of hasKey
          simp only
          rw [getD_replicate_nil, getD_replicate_nil]
          simp

/-- C7: after construction and after any sequence of constraint-installation
operations (operations that raise leave the model unchanged), the neighbor
cache equals the exact derived closure of the compatibility table: `j` is a
neighbor of `i` iff `i` is a neighbor of `j` iff the table has an entry keyed
`(i, j)` or `(j, i)`. -/
theorem neighbor_cache_exact_closure (n : Int) (ds : List (List Int)) (csp0 : CSP)
    (ops : List PubOp) (hmk : mkCSP n ds = .ok csp0)
    (hall : ∀ op ∈ ops, op.isInstall = true) :
    nbInv (applyPubs ops csp0) :=
  (SInv_applyPubs_install ops hall csp0 (SInv_mkCSP hmk)).2

/-- Witness for `neighbor_cache_exact_closure`: a concrete model with one
installation of each kind, including a degenerate self all-diff edge. -/
theorem neighbor_cache_exact_closure_witness :
    (mkCSP 3 [[1, 2], [1, 2], [1, 2]] =
      .ok (CSP.mk 3 [[1, 2], [1, 2], [1, 2]] [] [[], [], []]) ∧
     (∀ op ∈ ([PubOp.bin 0 1 [(1, 2)], PubOp.sym 1 2 [(1, 2), (2, 1)],
                PubOp.diff 0 2, PubOp.diff 0 0] : List PubOp), op.isInstall = true)) ∧
    nbInv (applyPubs
      [PubOp.bin 0 1 [(1, 2)], PubOp.sym 1 2 [(1, 2), (2, 1)],
       PubOp.diff 0 2, PubOp.diff 0 0]
      (CSP.mk 3 [[1, 2], [1, 2], [1, 2]] [] [[], [], []])) :=
  ⟨⟨rfl, by decide⟩,
   neighbor_cache_exact_closure 3 [[1, 2], [1, 2], [1, 2]]
     (CSP.mk 3 [[1, 2], [1, 2], [1, 2]] [] [[], [], []])
     [PubOp.bin 0 1 [(1, 2)], PubOp.sym 1 2 [(1, 2), (2, 1)],
      PubOp.diff 0 2, PubOp.diff 0 0] rfl (by decide)⟩

/-! ### Claim C10: domains only ever shrink -/

theorem mkCSP_ok_inv {n : Int} {ds : List (List Int)} {csp0 : CSP}
    (hmk : mkCSP n ds = .ok csp0) :
    csp0 = CSP.mk n.toNat (ds.map List.dedup) [] (List.replicate n.toNat []) := by
  rw [mkCSP] at hmk
  by_cases h1 : n < 1
  · rw [if_pos h1] at hmk; cases hmk
  · rw [if_neg h1] at hmk
    by_cases h2 : (ds.length : Int) ≠ n
    · rw [if_pos h2] at hmk; cases hmk
    · rw [if_neg h2] at hmk
      by_cases h3 : ds.any (fun d => d.isEmpty) = true
      · rw [if_pos h3] at hmk; cases hmk
      · rw [if_neg h3] at hmk
        exact (Except.ok.inj hmk).symm

theorem remove_domain_sublist (csp : CSP) (v : Nat) (x0 : Int) (w : Nat) :
    ((csp.remove_from_domain v x0).1.domain w).Sublist (csp.domain w) := by
  unfold CSP.remove_from_domain
  by_cases hmem : x0 ∈ csp.domain v
  · rw [if_pos hmem]
    by_cases hw : w = v
    · subst hw
      show ((csp.setDom w ((csp.domain w).erase x0)).domain w).Sublist (csp.domain w)
      rw [domain_setDom_erase]
      exact List.erase_sublist _ _
    · show ((csp.setDom v ((csp.domain v).erase x0)).domain w).Sublist (csp.domain w)
      rw [domain_setDom_ne csp hw]
  · rw [if_neg hmem]

theorem applyPub_domain_sublist (csp : CSP) (op : PubOp) (w : Nat) :
    ((applyPub csp op).domain w).Sublist (csp.domain w) := by
  cases op with
  | bin i j pairs =>
    cases hres : csp.add_binary_constraint i j pairs with
    | error m =>
      have happ : applyPub csp (PubOp.bin i j pairs) = csp := by
        simp only [applyPub, hres, Except.toOption, Option.getD_none]
      rw [happ]
    | ok c =>
      obtain ⟨_, _, hc⟩ := add_binary_ok_inv hres
      have happ : applyPub csp (PubOp.bin i j pairs) = c := by
        simp only [applyPub, hres, Except.toOption, Option.getD_some]
      rw [happ, hc]
      exact List.Sublist.refl _
  | sym i j rel =>
    cases hres : csp.add_symmetric_binary_constraint i j rel with
    | error m =>
      have happ : applyPub csp (PubOp.sym i j rel) = csp := by
        simp only [applyPub, hres, Except.toOption, Option.getD_none]
      rw [happ]
    | ok c =>
      obtain ⟨c1, hres1, hres2⟩ := add_symmetric_ok_inv hres
      obtain ⟨_, _, hc1⟩ := add_binary_ok_inv hres1
      obtain ⟨_, _, hc⟩ := add_binary_ok_inv hres2
      have happ : applyPub csp (PubOp.sym i j rel) = c := by
        simp only [applyPub, hres, Except.toOption, Option.getD_some]
      rw [happ, hc, hc1]
      exact List.Sublist.refl _
  | diff i j =>
    cases hres : csp.add_all_diff_edge i j with
    | error m =>
      have happ : applyPub csp (PubOp.diff i j) = csp := by
        simp only [applyPub, hres, Except.toOption, Option.getD_none]
      rw [happ]
    | ok c =>
      obtain ⟨_, hc⟩ := add_all_diff_ok_inv hres
      have happ : applyPub csp (PubOp.diff i j) = c := by
        simp only [applyPub, hres, Except.toOption, Option.getD_some]
      rw [happ, hc]
      exact List.Sublist.refl _
  | rem v x0 => exact remove_domain_sublist csp v x0 w
  | rev xi xj => exact revise_domain_sublist csp xi xj w

theorem applyPubs_domain_sublist :
    ∀ (ops : List PubOp) (csp : CSP) (w : Nat),
      ((applyPubs ops csp).domain w).Sublist (csp.domain w) := by
  intro ops
  induction ops with
  | nil => intro csp w; exact List.Sublist.refl _
  | cons op rest ih =>
    intro csp w
    exact (ih (applyPub csp op) w).trans (applyPub_domain_sublist csp op w)

theorem map_dedup_getD (ds : List (List Int)) (v : Nat) :
    (ds.map List.dedup).getD v [] = (ds.getD v []).dedup := by
  rw [List.getD_eq_getElem?_getD, List.getD_eq_getElem?_getD, List.getElem?_map]
  cases ds[v]? with
  | none => rfl
  | some d => rfl

/-- C10: domains only ever shrink after construction.  For any model built by
the constructor and any sequence of public mutating operations (constraint
installation, `remove_from_domain`, `revise`; consistency queries return no
model and cannot mutate in the value embedding), every value remaining in a
current domain was present in the initial domain supplied at construction. -/
theorem domains_only_shrink (n : Int) (ds : List (List Int)) (csp0 : CSP)
    (hmk : mkCSP n ds = .ok csp0) (ops : List PubOp) (v : Nat) (x : Int)
    (hx : x ∈ (applyPubs ops csp0).domain v) : x ∈ ds.getD v [] := by
  have h1 : x ∈ csp0.domain v := (applyPubs_domain_sublist ops csp0 v).subset hx
  rw [mkCSP_ok_inv hmk] at h1
  have h2 : (CSP.mk n.toNat (ds.map List.dedup) [] (List.replicate n.toNat [])).domain v
      = (ds.getD v []).dedup := map_dedup_getD ds v
  rw [h2] at h1
  exact List.mem_dedup.mp h1

/-- Witness for `domains_only_shrink` on a concrete model with one
installation, one removal and one revise in the operation sequence. -/
theorem domains_only_shrink_witness :
    (mkCSP 2 [[1, 2], [1, 2]] = .ok (CSP.mk 2 [[1, 2], [1, 2]] [] [[], []]) ∧
     (1 : Int) ∈ (applyPubs [PubOp.diff 0 1, PubOp.rem 0 2, PubOp.rev 0 1]
        (CSP.mk 2 [[1, 2], [1, 2]] [] [[], []])).domain 0) ∧
    (1 : Int) ∈ ([[1, 2], [1, 2]] : List (List Int)).getD 0 [] :=
  ⟨⟨rfl, by decide⟩,
   domains_only_shrink 2 [[1, 2], [1, 2]] (CSP.mk 2 [[1, 2], [1, 2]] [] [[], []])
     rfl [PubOp.diff 0 1, PubOp.rem 0 2, PubOp.rev 0 1] 0 1 (by decide)⟩

/-! ### Claim C9: LCV value ordering -/

theorem insertByKey_perm (key : Int → Nat) (x : Int) :
    ∀ l : List Int, (insertByKey key x l).Perm (x :: l) := by
  intro l
  induction l with
  | nil => exact List.Perm.refl _
  | cons y ys ih =>
    rw [insertByKey]
    by_cases h : key y < key x
    · rw [if_pos h]
      exact (List.Perm.cons y ih).trans (List.Perm.swap x y ys)
    · rw [if_neg h]

theorem sortByKey_perm (key : Int → Nat) :
    ∀ l : List Int, (sortByKey key l).Perm l := by
  intro l
  induction l with
  | nil => exact List.Perm.refl _
  | cons x xs ih =>
    rw [sortByKey]
    exact (insertByKey_perm key x (sortByKey key xs)).trans (List.Perm.cons x ih)

theorem mem_insertByKey (key : Int → Nat) (x : Int) (l : List Int) (a : Int) :
    a ∈ insertByKey key x l ↔ a = x ∨ a ∈ l := by
  rw [(insertByKey_perm key x l).mem_iff]
  simp

theorem insertByKey_sorted (key : Int → Nat) (x : Int) :
    ∀ l : List Int, l.Pairwise (fun a b => key a ≤ key b) →
      (insertByKey key x l).Pairwise (fun a b => key a ≤ key b) := by
  intro l
  induction l with
  | nil => intro _; exact List.pairwise_singleton _ _
  | cons y ys ih =>
    intro hp
    obtain ⟨hy, hys⟩ := List.pairwise_cons.mp hp
    rw [insertByKey]
    by_cases h : key y < key x
    · rw [if_pos h]
      apply List.pairwise_cons.mpr
      refine ⟨?_, ih hys⟩
      intro a ha
      rcases (mem_insertByKey key x ys a).mp ha with rfl | ha2
      · exact Nat.le_of_lt h
      · exact hy a ha2
    · rw [if_neg h]
      apply List.pairwise_cons.mpr
      refine ⟨?_, hp⟩
      intro a ha
      rcases List.mem_cons.mp ha with rfl | ha2
      · exact Nat.le_of_not_lt h
      · exact (Nat.le_of_not_lt h).trans (hy a ha2)

theorem sortByKey_sorted (key : Int → Nat) :
    ∀ l : List Int, (sortByKey key l).Pairwise (fun a b => key a ≤ key b) := by
  intro l
  induction l with
  | nil => exact List.Pairwise.nil
  | cons x xs ih =>
    rw [sortByKey]
    exact insertByKey_sorted key x (sortByKey key xs) ih

theorem filter_insertByKey (key : Int → Nat) (x : Int) (k : Nat) :
    ∀ l : List Int,
      (insertByKey key x l).filter (fun v => key v = k) =
        if key x = k then x :: l.filter (fun v => key v = k)
        else l.filter (fun v => key v = k) := by
  intro l
  induction l with
  | nil =>
    rw [insertByKey]
    by_cases hx : key x = k
    · rw [if_pos hx]; simp [List.filter, hx]
    · rw [if_neg hx]; simp [List.filter, hx]
  | cons y ys ih =>
    rw [insertByKey]
    by_cases h : key y < key x
    · rw [if_pos h]
      by_cases hx : key x = k
      · have hy : ¬(key y = k) := by
          intro hyk
          rw [hyk, hx] at h
          exact Nat.lt_irrefl k h
        simp [List.filter_cons, hy, hx, ih]
      · simp [List.filter_cons, hx, ih]
    · rw [if_neg h]
      by_cases hx : key x = k
      · simp [List.filter_cons, hx]
      · simp [List.filter_cons, hx]

theorem filter_sortByKey (key : Int → Nat) (k : Nat) :
    ∀ l : List Int,
      (sortByKey key l).filter (fun v => key v = k) = l.filter (fun v => key v = k) := by
  intro l
  induction l with
  | nil => rfl
  | cons x xs ih =>
    rw [sortByKey, filter_insertByKey]
    by_cases hx : key x = k
    · rw [if_pos hx, ih, List.filter_cons]
      simp [hx]
    · rw [if_neg hx, ih, List.filter_cons]
      simp [hx]

/-- C9: with LCV enabled, `order_domain_values` returns exactly the values of
the current domain of `var` (a permutation of the snapshot), sorted ascending
by `lcv_score` (the count over unassigned neighbors and their domain values
of pairs ruled out by `var = val`), and values with equal scores keep the
relative order of the domain snapshot: for every score level, filtering the
output by that score equals filtering the input by it (the characterization
of a stable sort, which pins the output uniquely, as Python sorted does). -/
theorem order_domain_values_lcv_spec (csp : CSP) (var : Nat) (asg : List (Nat × Int)) :
    (order_domain_values csp var asg true).Perm (csp.domain var) ∧
    (order_domain_values csp var asg true).Pairwise
      (fun a b => lcv_score csp var asg a ≤ lcv_score csp var asg b) ∧
    (∀ k, (order_domain_values csp var asg true).filter
        (fun v => lcv_score csp var asg v = k) =
      (csp.domain var).filter (fun v => lcv_score csp var asg v = k)) := by
  refine ⟨?_, ?_, ?_⟩
  · show (sortByKey (lcv_score csp var asg) (csp.domain var)).Perm (csp.domain var)
    exact sortByKey_perm _ _
  · show (sortByKey (lcv_score csp var asg) (csp.domain var)).Pairwise _
    exact sortByKey_sorted _ _
  · intro k
    show (sortByKey (lcv_score csp var asg) (csp.domain var)).filter _ = _
    exact filter_sortByKey _ k _

/-! ### Claim C1: soundness of backtracking search -/

theorem lookupAsg_none_iff (asg : List (Nat × Int)) (v : Nat) :
    lookupAsg asg v = none ↔ ∀ p ∈ asg, p.1 ≠ v := by
  unfold lookupAsg
  rw [Option.map_eq_none', List.find?_eq_none]
  simp

theorem lookupAsg_some_mem {asg : List (Nat × Int)} {v : Nat} {x : Int}
    (h : lookupAsg asg v = some x) : (v, x) ∈ asg := by
  unfold lookupAsg at h
  cases hf : asg.find? (fun p => p.1 = v) with
  | none => rw [hf] at h; cases h
  | some p =>
    rw [hf] at h
    have hp : p.1 = v := by simpa using List.find?_some hf
    have hx : p.2 = x := by simpa using h
    have hm := List.mem_of_find?_eq_some hf
    have : (v, x) = p := by rw [← hp, ← hx]
    rw [this]
    exact hm

theorem lookupAsg_some_of_mem_keys {asg : List (Nat × Int)} {v : Nat}
    (h : v ∈ asg.map (·.1)) : ∃ x, lookupAsg asg v = some x := by
  obtain ⟨p, hp, hpv⟩ := List.mem_map.mp h
  have hsome : (asg.find? (fun p => p.1 = v)).isSome = true :=
    List.find?_isSome.mpr ⟨p, hp, by simp [hpv]⟩
  cases hf : asg.find? (fun p => p.1 = v) with
  | none => rw [hf] at hsome; cases hsome
  | some q => exact ⟨q.2, by unfold lookupAsg; rw [hf]; rfl⟩

theorem foldl_choice_mem (f : Nat → Nat → Nat)
    (hf : ∀ b v, f b v = b ∨ f b v = v) :
    ∀ (xs : List Nat) (x : Nat), xs.foldl f x ∈ x :: xs := by
  intro xs
  induction xs with
  | nil => intro x; exact List.mem_cons_self x []
  | cons v vs ih =>
    intro x
    rw [List.foldl_cons]
    rcases List.mem_cons.mp (ih (f x v)) with h2 | h2
    · rw [h2]
      rcases hf x v with h | h
      · rw [h]; exact List.mem_cons_self x (v :: vs)
      · rw [h]; exact List.mem_cons_of_mem x (List.mem_cons_self v vs)
    · exact List.mem_cons_of_mem x (List.mem_cons_of_mem v h2)

theorem firstMinBy_mem (key : Nat → Nat) (x : Nat) (xs : List Nat) :
    firstMinBy key x xs ∈ x :: xs :=
  foldl_choice_mem _ (fun b v => by
    by_cases h : key v < key b
    · exact Or.inr (if_pos h)
    · exact Or.inl (if_neg h)) xs x

theorem firstMaxBy_mem (key : Nat → Nat) (x : Nat) (xs : List Nat) :
    firstMaxBy key x xs ∈ x :: xs :=
  foldl_choice_mem _ (fun b v => by
    by_cases h : key b < key v
    · exact Or.inr (if_pos h)
    · exact Or.inl (if_neg h)) xs x

theorem select_cons (csp : CSP) (asg : List (Nat × Int)) (strat : VarStrategy)
    (u : Nat) (us : List Nat) (hu : unassignedVars csp asg = u :: us) :
    select_unassigned_variable csp asg strat =
      match strat with
      | .first => some u
      | .degree => some (firstMaxBy (degreeOf csp asg) u us)
      | .mrv => some (firstMinBy (fun v => (csp.domain v).length) u us)
      | .mrvDegree =>
        match (u :: us).filter (fun v => (csp.domain v).length =
            us.foldl (fun m w => min m ((csp.domain w).length)) ((csp.domain u).length)) with
        | [] => none
        | c :: cs => some (firstMaxBy (degreeOf csp asg) c cs) := by
  rw [select_unassigned_variable, hu]

theorem select_some_mem {csp : CSP} {asg : List (Nat × Int)} {strat : VarStrategy}
    {var : Nat} (h : select_unassigned_variable csp asg strat = some var) :
    var < csp.n_vars ∧ lookupAsg asg var = none := by
  have hmem : var ∈ unassignedVars csp asg := by
    cases hu : unassignedVars csp asg with
    | nil => rw [select_unassigned_variable, hu] at h; cases h
    | cons u us =>
      rw [select_cons csp asg strat u us hu] at h
      cases strat with
      | first =>
        obtain rfl := Option.some.inj h
        exact List.mem_cons_self u us
      | degree =>
        obtain rfl := Option.some.inj h
        exact firstMaxBy_mem _ u us
      | mrv =>
        obtain rfl := Option.some.inj h
        exact firstMinBy_mem _ u us
      | mrvDegree =>
        cases hf : (u :: us).filter (fun v => (csp.domain v).length =
            us.foldl (fun m w => min m ((csp.domain w).length)) ((csp.domain u).length)) with
        | nil => rw [hf] at h; cases h
        | cons c cs =>
          rw [hf] at h
          obtain rfl := Option.some.inj h
          have hm : firstMaxBy (degreeOf csp asg) c cs ∈ c :: cs := firstMaxBy_mem _ c cs
          rw [← hf] at hm
          exact (List.mem_filter.mp hm).1
  obtain ⟨hr, hn⟩ := List.mem_filter.mp hmem
  exact ⟨List.mem_range.mp hr, Option.isNone_iff_eq_none.mp (by simpa using hn)⟩

theorem mem_order_domain_values {csp : CSP} {var : Nat} {asg : List (Nat × Int)}
    {lcv : Bool} {val : Int} (h : val ∈ order_domain_values csp var asg lcv) :
    val ∈ csp.domain var := by
  cases lcv with
  | false => exact h
  | true =>
    exact ((sortByKey_perm (lcv_score csp var asg) (csp.domain var)).mem_iff).mp h

theorem is_pair_allowed_congr {c1 c2 : CSP} (h : c1.allowed = c2.allowed)
    (i : Nat) (vi : Int) (j : Nat) (vj : Int) :
    c1.is_pair_allowed i vi j vj = c2.is_pair_allowed i vi j vj := by
  unfold CSP.is_pair_allowed
  rw [lookupArc_congr h]

theorem ac3_allowed (csp : CSP) : (ac3 csp).1.allowed = csp.allowed :=
  ac3Fuel_allowed _ _ _

theorem ac3_n_vars (csp : CSP) : (ac3 csp).1.n_vars = csp.n_vars :=
  ac3Fuel_n_vars _ _ _

theorem inferenceStep_fields {inf : Inference} {child child2 : CSP}
    (h : inferenceStep inf child = some child2) :
    child2.allowed = child.allowed ∧ child2.n_vars = child.n_vars := by
  cases inf with
  | skip =>
    obtain rfl := Option.some.inj h
    exact ⟨rfl, rfl⟩
  | ac3 =>
    unfold inferenceStep at h
    by_cases hr : (ac3 child).2 = true
    · rw [if_pos hr] at h
      obtain rfl := Option.some.inj h
      exact ⟨ac3_allowed child, ac3_n_vars child⟩
    · rw [if_neg hr] at h
      cases h

/-- Partial assignments reachable by the search: distinct in-range keys whose
bound pairs satisfy the reference tables in both directions. -/
def GoodAsg (csp0 : CSP) (asg : List (Nat × Int)) : Prop :=
  (asg.map (·.1)).Nodup ∧ (∀ p ∈ asg, p.1 < csp0.n_vars) ∧
  (∀ p ∈ asg, ∀ q ∈ asg, p.1 ≠ q.1 →
    csp0.is_pair_allowed p.1 p.2 q.1 q.2 = true)

theorem GoodAsg_nil (csp0 : CSP) : GoodAsg csp0 [] :=
  ⟨List.nodup_nil, by simp, by simp⟩

theorem GoodAsg_extend {csp0 csp : CSP} {asg : List (Nat × Int)} {var : Nat} {val : Int}
    (hA : csp.allowed = csp0.allowed)
    (hgood : GoodAsg csp0 asg) (hvar : var < csp0.n_vars)
    (hnone : lookupAsg asg var = none)
    (hcons : is_locally_consistent csp var val asg = true) :
    GoodAsg csp0 (asg ++ [(var, val)]) := by
  obtain ⟨hnd, hlt, hpair⟩ := hgood
  have hnotin := (lookupAsg_none_iff asg var).mp hnone
  have hboth : ∀ p ∈ asg, csp0.is_pair_allowed var val p.1 p.2 = true ∧
      csp0.is_pair_allowed p.1 p.2 var val = true := by
    intro p hp
    have := List.all_eq_true.mp hcons p hp
    rw [Bool.and_eq_true] at this
    rw [← is_pair_allowed_congr hA, ← is_pair_allowed_congr hA]
    exact this
  refine ⟨?_, ?_, ?_⟩
  · rw [List.map_append]
    rw [List.nodup_append]
    refine ⟨hnd, List.nodup_singleton var, ?_⟩
    intro a ha hb
    obtain ⟨p, hp, rfl⟩ := List.mem_map.mp ha
    simp only [List.map_cons, List.map_nil, List.mem_singleton] at hb
    exact hnotin p hp hb
  · intro p hp
    rcases List.mem_append.mp hp with hp2 | hp2
    · exact hlt p hp2
    · simp only [List.mem_singleton] at hp2
      rw [hp2]
      exact hvar
  · intro p hp q hq hne
    rcases List.mem_append.mp hp with hp2 | hp2 <;>
      rcases List.mem_append.mp hq with hq2 | hq2
    · exact hpair p hp2 q hq2 hne
    · simp only [List.mem_singleton] at hq2
      rw [hq2]
      exact (hboth p hp2).2
    · simp only [List.mem_singleton] at hp2
      rw [hp2]
      exact (hboth q hq2).1
    · simp only [List.mem_singleton] at hp2 hq2
      rw [hp2, hq2] at hne
      exact absurd rfl hne

theorem tryValues_sound (csp0 : CSP) (cfg : Config)
    (rec : CSP → List (Nat × Int) → Option (List (Nat × Int)))
    (hrec : ∀ csp asg r, csp.allowed = csp0.allowed → csp.n_vars = csp0.n_vars →
      GoodAsg csp0 asg → rec csp asg = some r →
      GoodAsg csp0 r ∧ r.length = csp0.n_vars)
    (csp : CSP) (asg : List (Nat × Int)) (var : Nat)
    (hA : csp.allowed = csp0.allowed) (hN : csp.n_vars = csp0.n_vars)
    (hvar : var < csp0.n_vars) (hnone : lookupAsg asg var = none)
    (hgood : GoodAsg csp0 asg) :
    ∀ (vals : List Int) (r : List (Nat × Int)),
      tryValues rec cfg csp asg var vals = some r →
      GoodAsg csp0 r ∧ r.length = csp0.n_vars := by
  intro vals
  induction vals with
  | nil => intro r h; cases h
  | cons val rest ih =>
    intro r h
    rw [tryValues] at h
    by_cases hcons : is_locally_consistent csp var val asg = true
    · rw [if_neg (by rw [hcons]; simp)] at h
      cases hinf : inferenceStep cfg.inference
          { csp with domains := csp.domains.set var [val] } with
      | none =>
        rw [hinf] at h
        exact ih r h
      | some child2 =>
        rw [hinf] at h
        obtain ⟨hA2, hN2⟩ := inferenceStep_fields hinf
        have h2 : (if ((List.range child2.n_vars).any
              (fun v => (child2.domain v).isEmpty)) = true then
            tryValues rec cfg csp asg var rest
          else
            match rec child2 (asg ++ [(var, val)]) with
            | some r2 => some r2
            | none => tryValues rec cfg csp asg var rest) = some r := h
        by_cases hemp : ((List.range child2.n_vars).any
            (fun v => (child2.domain v).isEmpty)) = true
        · rw [if_pos hemp] at h2
          exact ih r h2
        · rw [if_neg hemp] at h2
          cases hrec2 : rec child2 (asg ++ [(var, val)]) with
          | none =>
            rw [hrec2] at h2
            exact ih r h2
          | some r2 =>
            rw [hrec2] at h2
            obtain rfl := Option.some.inj h2
            exact hrec child2 (asg ++ [(var, val)]) r2 (by rw [hA2]; exact hA)
              (by rw [hN2]; exact hN)
              (GoodAsg_extend hA hgood hvar hnone hcons) hrec2
    · rw [if_pos (by rw [Bool.eq_false_iff.mpr hcons]; simp)] at h
      exact ih r h

theorem recurseBT_sound (csp0 : CSP) (cfg : Config) :
    ∀ (fuel : Nat) (csp : CSP) (asg : List (Nat × Int)) (r : List (Nat × Int)),
      csp.allowed = csp0.allowed → csp.n_vars = csp0.n_vars →
      GoodAsg csp0 asg →
      recurseBT cfg fuel csp asg = some r →
      GoodAsg csp0 r ∧ r.length = csp0.n_vars := by
  intro fuel
  induction fuel with
  | zero =>
    intro csp asg r hA hN hgood h
    rw [recurseBT] at h
    by_cases hlen : asg.length = csp.n_vars
    · rw [if_pos hlen] at h
      obtain rfl := Option.some.inj h
      exact ⟨hgood, by rw [← hN]; exact hlen⟩
    · rw [if_neg hlen] at h; cases h
  | succ fuel ih =>
    intro csp asg r hA hN hgood h
    rw [recurseBT] at h
    by_cases hlen : asg.length = csp.n_vars
    · rw [if_pos hlen] at h
      obtain rfl := Option.some.inj h
      exact ⟨hgood, by rw [← hN]; exact hlen⟩
    · rw [if_neg hlen] at h
      cases hsel : select_unassigned_variable csp asg cfg.strategy with
      | none => rw [hsel] at h; cases h
      | some var =>
        rw [hsel] at h
        obtain ⟨hvrange, hvnone⟩ := select_some_mem hsel
        exact tryValues_sound csp0 cfg (recurseBT cfg fuel)
          (fun c a r2 hA2 hN2 hg hr => ih c a r2 hA2 hN2 hg hr)
          csp asg var hA hN (hN ▸ hvrange) hvnone hgood _ r h

/-- C1 (corrected: the claim as stated fails when the table stores a self arc
`(i, i)` — reachable through `add_all_diff_edge(i, i)` — because the local
consistency check only compares the candidate with the *other* assigned
variables, see `search_violates_self_arc`.  Amended by requiring every stored
arc to relate two distinct in-range variables, the shape the data model
prescribes).  For every such model, every configuration, if
`backtracking_search` returns an assignment, it binds every variable in
`[0, n_vars)` and satisfies every stored arc: the bound pair of values is a
member of the arc table. -/
theorem backtracking_search_sound (csp : CSP) (cfg : Config) (r : List (Nat × Int))
    (hkeys : keysNodup csp)
    (harcs : ∀ e ∈ csp.allowed, e.1.1 < csp.n_vars ∧ e.1.2 < csp.n_vars ∧ e.1.1 ≠ e.1.2)
    (hrun : backtracking_search csp cfg = some r) :
    (∀ v, v < csp.n_vars → ∃ val, lookupAsg r v = some val) ∧
    (∀ e ∈ csp.allowed, ∃ vi vj, lookupAsg r e.1.1 = some vi ∧
      lookupAsg r e.1.2 = some vj ∧ (vi, vj) ∈ e.2) := by
  obtain ⟨⟨hnd, hlt, hpair⟩, hlen⟩ :=
    recurseBT_sound csp cfg csp.n_vars csp [] r rfl rfl (GoodAsg_nil csp) hrun
  have hkeysfull : ∀ v, v < csp.n_vars → v ∈ r.map (·.1) := by
    intro v hv
    have hsub : (r.map (·.1)).toFinset ⊆ Finset.range csp.n_vars := by
      intro a ha
      rw [Finset.mem_range]
      obtain ⟨p, hp, rfl⟩ := List.mem_map.mp (List.mem_toFinset.mp ha)
      exact hlt p hp
    have hcard : (Finset.range csp.n_vars).card ≤ (r.map (·.1)).toFinset.card := by
      rw [List.toFinset_card_of_nodup hnd, Finset.card_range, List.length_map, hlen]
    have := Finset.eq_of_subset_of_card_le hsub hcard
    rw [← List.mem_toFinset, this, Finset.mem_range]
    exact hv
  constructor
  · intro v hv
    exact lookupAsg_some_of_mem_keys (hkeysfull v hv)
  · intro e he
    obtain ⟨hi, hj, hij⟩ := harcs e he
    obtain ⟨vi, hvi⟩ := lookupAsg_some_of_mem_keys (hkeysfull e.1.1 hi)
    obtain ⟨vj, hvj⟩ := lookupAsg_some_of_mem_keys (hkeysfull e.1.2 hj)
    refine ⟨vi, vj, hvi, hvj, ?_⟩
    have hmem1 := lookupAsg_some_mem hvi
    have hmem2 := lookupAsg_some_mem hvj
    have hall := hpair (e.1.1, vi) hmem1 (e.1.2, vj) hmem2 hij
    unfold CSP.is_pair_allowed at hall
    rw [lookupArc_of_mem hkeys he] at hall
    exact List.elem_iff.mp hall

/-- Witness for `backtracking_search_sound` at the concrete symmetric model
with the default configuration. -/
theorem backtracking_search_sound_witness :
    (keysNodup symModel ∧
     (∀ e ∈ symModel.allowed,
        e.1.1 < symModel.n_vars ∧ e.1.2 < symModel.n_vars ∧ e.1.1 ≠ e.1.2) ∧
     backtracking_search symModel ⟨.mrvDegree, true, .ac3⟩ = some [(0, 1), (1, 2)]) ∧
    ((∀ v, v < symModel.n_vars → ∃ val, lookupAsg [(0, 1), (1, 2)] v = some val) ∧
     (∀ e ∈ symModel.allowed, ∃ vi vj, lookupAsg [(0, 1), (1, 2)] e.1.1 = some vi ∧
        lookupAsg [(0, 1), (1, 2)] e.1.2 = some vj ∧ (vi, vj) ∈ e.2)) :=
  ⟨⟨by decide, by decide, by decide⟩,
   backtracking_search_sound symModel ⟨.mrvDegree, true, .ac3⟩ [(0, 1), (1, 2)]
     (by decide) (by decide) (by decide)⟩

/-- Counterexample to C1 as stated: on the one-variable model with the self
arc installed by `add_all_diff_edge(0, 0)`, the search (variable strategy
`none`, no LCV, no inference) returns the assignment `{0: 1}`, but the pair
`(1, 1)` is not in the stored table of the arc `(0, 0)`. -/
theorem search_violates_self_arc :
    buildSelfArc2.toOption = some selfArc2 ∧
    backtracking_search selfArc2 ⟨.first, false, .skip⟩ = some [(0, 1)] ∧
    lookupArc selfArc2 0 0 = some [(2, 1), (1, 2)] ∧
    ((1 : Int), (1 : Int)) ∉ [((2 : Int), (1 : Int)), (1, 2)] := by decide

/-! ### Claim C4: a heap model of Python object identity

The value embedding above cannot express aliasing, so the clone-independence
claim is settled against a reference-indexed heap model of the same source:
mutable Python sets and dicts live in stores keyed by references, a CSP
object holds references, and `copy_with_domains` allocates fresh cells.  One
shared counter `next` issues references, so freshly allocated cells are
disjoint from everything already reachable. -/

/-- Lookup of a heap cell (`none` when the reference denotes no cell). -/
def getCell {α : Type} (cs : List (Nat × α)) (r : Nat) : Option α :=
  (cs.find? (fun c => c.1 = r)).map (·.2)

/-- In-place update of a heap cell; a reference without a cell is a no-op. -/
def updCell {α : Type} (cs : List (Nat × α)) (r : Nat) (v : α) : List (Nat × α) :=
  cs.map (fun c => if c.1 = r then (r, v) else c)

/-- Heap state.  Domains are integer-set cells, neighbor sets are
variable-set cells, tables are pair-set cells, and the compatibility dict is
a cell mapping arcs to pair-set references. -/
structure HState where
  intSets : List (Nat × List Int)
  natSets : List (Nat × List Nat)
  pairSets : List (Nat × List Pair)
  dicts : List (Nat × List (Arc × Nat))
  next : Nat

def getIntSet (st : HState) (r : Nat) : List Int := (getCell st.intSets r).getD []
def getNatSet (st : HState) (r : Nat) : List Nat := (getCell st.natSets r).getD []
def getPairSet (st : HState) (r : Nat) : List Pair := (getCell st.pairSets r).getD []
def getDict (st : HState) (r : Nat) : List (Arc × Nat) := (getCell st.dicts r).getD []

def setIntSet (st : HState) (r : Nat) (v : List Int) : HState :=
  { st with intSets := updCell st.intSets r v }
def setNatSet (st : HState) (r : Nat) (v : List Nat) : HState :=
  { st with natSets := updCell st.natSets r v }
def setDict (st : HState) (r : Nat) (v : List (Arc × Nat)) : HState :=
  { st with dicts := updCell st.dicts r v }

def allocIntSet (st : HState) (v : List Int) : Nat × HState :=
  (st.next, { st with intSets := st.intSets ++ [(st.next, v)], next := st.next + 1 })
def allocNatSet (st : HState) (v : List Nat) : Nat × HState :=
  (st.next, { st with natSets := st.natSets ++ [(st.next, v)], next := st.next + 1 })
def allocPairSet (st : HState) (v : List Pair) : Nat × HState :=
  (st.next, { st with pairSets := st.pairSets ++ [(st.next, v)], next := st.next + 1 })
def allocDict (st : HState) (v : List (Arc × Nat)) : Nat × HState :=
  (st.next, { st with dicts := st.dicts ++ [(st.next, v)], next := st.next + 1 })

/-- Dict assignment on an arc-to-reference association list. -/
def setArcRef (al : List (Arc × Nat)) (k : Arc) (v : Nat) : List (Arc × Nat) :=
  if al.any (fun e => e.1 = k) then al.map (fun e => if e.1 = k then (k, v) else e)
  else al ++ [(k, v)]

/-- The dict write `self.allowed[(i, j)] = table`. -/
def dictAssign (st : HState) (r : Nat) (k : Arc) (pr : Nat) : HState :=
  setDict st r (setArcRef (getDict st r) k pr)

/-- A CSP object: `n_vars` plus references to its domain sets, its
compatibility dict and its neighbor sets. -/
structure CSPObj where
  n_vars : Nat
  domains : List Nat
  allowedD : Nat
  neighbors : List Nat

/-- Heap version of `remove_from_domain` (an out-of-range variable raises in
Python and mutates nothing). -/
def removeFromDomainH (obj : CSPObj) (v : Nat) (x : Int) (st : HState) : HState :=
  match obj.domains[v]? with
  | none => st
  | some r =>
    if x ∈ getIntSet st r then setIntSet st r ((getIntSet st r).erase x) else st

/-- Heap version of `add_binary_constraint`: raise on `i == j` (no
mutation), otherwise build the filtered table as a fresh pair-set cell,
assign it into the dict of the object, and add both neighbor entries. -/
def addBinaryH (obj : CSPObj) (i j : Nat) (pairs : List Pair) (st : HState) : HState :=
  if i = j then st
  else
    match obj.domains[i]?, obj.domains[j]?, obj.neighbors[i]?, obj.neighbors[j]? with
    | some ri, some rj, some ni, some nj =>
      let table := (pairs.filter (fun p =>
        decide (p.1 ∈ getIntSet st ri) && decide (p.2 ∈ getIntSet st rj))).dedup
      let a := allocPairSet st table
      let st2 := dictAssign a.2 obj.allowedD (i, j) a.1
      let st3 := setNatSet st2 ni (addToSet (getNatSet st2 ni) j)
      setNatSet st3 nj (addToSet (getNatSet st3 nj) i)
    | _, _, _, _ => st

/-- Heap version of `add_symmetric_binary_constraint`: two `addBinaryH`
calls; when the first raises (`i == j`) the second never runs, which is what
composing the two no-ops models. -/
def addSymH (obj : CSPObj) (i j : Nat) (rel : List Pair) (st : HState) : HState :=
  addBinaryH obj j i ((rel.dedup).map (fun p => (p.2, p.1)))
    (addBinaryH obj i j rel.dedup st)

/-- Heap version of `add_all_diff_edge` (no `i == j` check, as in the
source). -/
def addAllDiffH (obj : CSPObj) (i j : Nat) (st : HState) : HState :=
  match obj.domains[i]?, obj.domains[j]?, obj.neighbors[i]?, obj.neighbors[j]? with
  | some ri, some rj, some ni, some nj =>
    let rel_ij := prodNe (getIntSet st ri) (getIntSet st rj)
    let a1 := allocPairSet st rel_ij
    let a2 := allocPairSet a1.2 (rel_ij.map (fun p => (p.2, p.1)))
    let st3 := dictAssign a2.2 obj.allowedD (i, j) a1.1
    let st4 := dictAssign st3 obj.allowedD (j, i) a2.1
    let st5 := setNatSet st4 ni (addToSet (getNatSet st4 ni) j)
    setNatSet st5 nj (addToSet (getNatSet st5 nj) i)
  | _, _, _, _ => st

/-- Loop of the heap `revise`: the support check dereferences the domain of
`xj` afresh on each iteration, so a self arc (where `ri = rj`, the very same
cell) behaves exactly like the Python aliasing. -/
def reviseGoH (ri rj : Nat) (table : List Pair) : List Int → HState → HState
  | [], st => st
  | vi :: rest, st =>
    if (getIntSet st rj).any (fun vj => table.contains (vi, vj)) then
      reviseGoH ri rj table rest st
    else
      reviseGoH ri rj table rest (setIntSet st ri ((getIntSet st ri).erase vi))

/-- Heap version of `revise` (the removed-anything flag plays no role in the
frame claim and is omitted). -/
def reviseH (obj : CSPObj) (xi xj : Nat) (st : HState) : HState :=
  match (getDict st obj.allowedD).find? (fun e => e.1 = (xi, xj)) with
  | none => st
  | some e =>
    match obj.domains[xi]?, obj.domains[xj]? with
    | some ri, some rj => reviseGoH ri rj (getPairSet st e.2) (getIntSet st ri) st
    | _, _ => st

/-- Heap version of `copy_with_domains`: fresh copies of every domain set,
every table cell, the dict and every neighbor set.  (The constructor
temporaries that the source immediately rebinds away are unreachable garbage
and are not modelled.) -/
def allocIntSets (st : HState) : List (List Int) → List Nat × HState
  | [] => ([], st)
  | v :: vs =>
    let a := allocIntSet st v
    let rest := allocIntSets a.2 vs
    (a.1 :: rest.1, rest.2)

def allocNatSets (st : HState) : List (List Nat) → List Nat × HState
  | [] => ([], st)
  | v :: vs =>
    let a := allocNatSet st v
    let rest := allocNatSets a.2 vs
    (a.1 :: rest.1, rest.2)

def allocPairSets (st : HState) : List (List Pair) → List Nat × HState
  | [] => ([], st)
  | v :: vs =>
    let a := allocPairSet st v
    let rest := allocPairSets a.2 vs
    (a.1 :: rest.1, rest.2)

def copyWithDomainsH (obj : CSPObj) (st : HState) : CSPObj × HState :=
  let ad := allocIntSets st (obj.domains.map (getIntSet st))
  let entries := getDict st obj.allowedD
  let ap := allocPairSets ad.2 (entries.map (fun e => getPairSet st e.2))
  let adict := allocDict ap.2 ((entries.map (·.1)).zip ap.1)
  let an := allocNatSets adict.2 (obj.neighbors.map (getNatSet st))
  (⟨obj.n_vars, ad.1, adict.1, an.1⟩, an.2)

/-- Apply one public mutating operation through an object. -/
def applyPubH (obj : CSPObj) (st : HState) (op : PubOp) : HState :=
  match op with
  | .bin i j pairs => addBinaryH obj i j pairs st
  | .sym i j rel => addSymH obj i j rel st
  | .diff i j => addAllDiffH obj i j st
  | .rem v x => removeFromDomainH obj v x st
  | .rev xi xj => reviseH obj xi xj st

def applyPubsH (obj : CSPObj) (ops : List PubOp) (st : HState) : HState :=
  ops.foldl (applyPubH obj) st

/-- Observable state of an object: the contents of its domains, its
compatibility table and its neighbor cache. -/
def viewDomains (obj : CSPObj) (st : HState) : List (List Int) :=
  obj.domains.map (getIntSet st)
def viewNeighbors (obj : CSPObj) (st : HState) : List (List Nat) :=
  obj.neighbors.map (getNatSet st)
def viewAllowed (obj : CSPObj) (st : HState) : List (Arc × List Pair) :=
  (getDict st obj.allowedD).map (fun e => (e.1, getPairSet st e.2))

/-! ### Heap cell lemmas -/

theorem find?_updCell_ne {α : Type} (r r2 : Nat) (v : α) (h : r2 ≠ r) :
    ∀ cs : List (Nat × α),
      (updCell cs r v).find? (fun c => c.1 = r2) = cs.find? (fun c => c.1 = r2) := by
  intro cs
  induction cs with
  | nil => rfl
  | cons c rest ih =>
    show ((if c.1 = r then (r, v) else c) :: updCell rest r v).find? _ = _
    by_cases hc : c.1 = r
    · rw [if_pos hc]
      rw [List.find?_cons_of_neg _ (by simp only [decide_eq_true_eq]; exact Ne.symm h)]
      rw [List.find?_cons_of_neg _ (by
        simp only [decide_eq_true_eq, hc]
        exact Ne.symm h)]
      exact ih
    · rw [if_neg hc]
      by_cases hp : c.1 = r2
      · rw [List.find?_cons_of_pos _ (by simpa using hp),
          List.find?_cons_of_pos _ (by simpa using hp)]
      · rw [List.find?_cons_of_neg _ (by simpa using hp),
          List.find?_cons_of_neg _ (by simpa using hp)]
        exact ih

theorem find?_updCell_self {α : Type} (r : Nat) (v : α) :
    ∀ cs : List (Nat × α), (cs.find? (fun c => c.1 = r)).isSome = true →
      (updCell cs r v).find? (fun c => c.1 = r) = some (r, v) := by
  intro cs
  induction cs with
  | nil => intro h; cases h
  | cons c rest ih =>
    intro h
    show ((if c.1 = r then (r, v) else c) :: updCell rest r v).find? _ = _
    by_cases hc : c.1 = r
    · rw [if_pos hc]
      exact List.find?_cons_of_pos _ (by simp)
    · rw [if_neg hc]
      rw [List.find?_cons_of_neg _ (by simpa using hc)]
      apply ih
      rw [List.find?_cons_of_neg _ (by simpa using hc)] at h
      exact h

theorem find?_append_cell_ne {α : Type} (r r2 : Nat) (v : α) (h : r2 ≠ r) :
    ∀ cs : List (Nat × α),
      (cs ++ [(r, v)]).find? (fun c => c.1 = r2) = cs.find? (fun c => c.1 = r2) := by
  intro cs
  induction cs with
  | nil =>
    simp only [List.nil_append]
    rw [List.find?_cons_of_neg _ (by simp only [decide_eq_true_eq]; exact Ne.symm h)]
  | cons c rest ih =>
    rw [List.cons_append]
    by_cases hp : c.1 = r2
    · rw [List.find?_cons_of_pos _ (by simpa using hp),
        List.find?_cons_of_pos _ (by simpa using hp)]
    · rw [List.find?_cons_of_neg _ (by simpa using hp),
        List.find?_cons_of_neg _ (by simpa using hp)]
      exact ih

theorem find?_append_cell_fresh {α : Type} (r : Nat) (v : α) :
    ∀ cs : List (Nat × α), (∀ c ∈ cs, c.1 ≠ r) →
      (cs ++ [(r, v)]).find? (fun c => c.1 = r) = some (r, v) := by
  intro cs
  induction cs with
  | nil =>
    intro _
    exact List.find?_cons_of_pos _ (by simp)
  | cons c rest ih =>
    intro h
    rw [List.cons_append]
    rw [List.find?_cons_of_neg _ (by simpa using h c (List.mem_cons_self c rest))]
    exact ih (fun c2 hc2 => h c2 (List.mem_cons_of_mem c hc2))

theorem getCell_updCell_ne {α : Type} (cs : List (Nat × α)) (r r2 : Nat) (v : α)
    (h : r2 ≠ r) : getCell (updCell cs r v) r2 = getCell cs r2 := by
  unfold getCell
  rw [find?_updCell_ne r r2 v h cs]

theorem getCell_append_ne {α : Type} (cs : List (Nat × α)) (r r2 : Nat) (v : α)
    (h : r2 ≠ r) : getCell (cs ++ [(r, v)]) r2 = getCell cs r2 := by
  unfold getCell
  rw [find?_append_cell_ne r r2 v h cs]

theorem getCell_append_fresh {α : Type} (cs : List (Nat × α)) (r : Nat) (v : α)
    (h : ∀ c ∈ cs, c.1 ≠ r) : getCell (cs ++ [(r, v)]) r = some v := by
  unfold getCell
  rw [find?_append_cell_fresh r v cs h]
  rfl

theorem mem_updCell {α : Type} (r : Nat) (v : α) :
    ∀ (cs : List (Nat × α)) (c : Nat × α), c ∈ updCell cs r v →
      c ∈ cs ∨ c = (r, v) := by
  intro cs c hc
  obtain ⟨c0, hc0, hf⟩ := List.mem_map.mp hc
  by_cases h0 : c0.1 = r
  · rw [if_pos h0] at hf
    exact Or.inr hf.symm
  · rw [if_neg h0] at hf
    exact Or.inl (hf ▸ hc0)

theorem mem_setArcRef (k : Arc) (v : Nat) :
    ∀ (al : List (Arc × Nat)) (e : Arc × Nat), e ∈ setArcRef al k v →
      e ∈ al ∨ e = (k, v) := by
  intro al e he
  unfold setArcRef at he
  by_cases h : al.any (fun e2 => e2.1 = k) = true
  · rw [if_pos h] at he
    obtain ⟨c0, hc0, hf⟩ := List.mem_map.mp he
    by_cases h0 : c0.1 = k
    · rw [if_pos h0] at hf
      exact Or.inr hf.symm
    · rw [if_neg h0] at hf
      exact Or.inl (hf ▸ hc0)
  · rw [if_neg h] at he
    rcases List.mem_append.mp he with h2 | h2
    · exact Or.inl h2
    · simp only [List.mem_singleton] at h2
      exact Or.inr h2

/-- Keys of every cell stay below the allocation counter. -/
abbrev keysBelow {α : Type} (cs : List (Nat × α)) (n : Nat) : Prop :=
  ∀ c ∈ cs, c.1 < n

theorem keysBelow_updCell {α : Type} {cs : List (Nat × α)} {n r : Nat} {v : α}
    (h : keysBelow cs n) (hr : r < n) : keysBelow (updCell cs r v) n := by
  intro c hc
  rcases mem_updCell r v cs c hc with h2 | h2
  · exact h c h2
  · rw [h2]; exact hr

theorem keysBelow_updCell_any {α : Type} {cs : List (Nat × α)} {n r : Nat} {v : α}
    (h : keysBelow cs n) : keysBelow (updCell cs r v) n := by
  intro c hc
  rcases mem_updCell r v cs c hc with h2 | h2
  · exact h c h2
  · -- an updated cell only exists when a cell with key r existed
    obtain ⟨c0, hc0, hf⟩ := List.mem_map.mp hc
    by_cases h0 : c0.1 = r
    · rw [if_pos h0] at hf
      rw [← hf]
      simp only
      rw [← h0]
      exact h c0 hc0
    · rw [if_neg h0] at hf
      rw [← hf]
      exact h c0 hc0

theorem keysBelow_append {α : Type} {cs : List (Nat × α)} {n r : Nat} {v : α}
    (h : keysBelow cs n) (hr : r < n) : keysBelow (cs ++ [(r, v)]) n := by
  intro c hc
  rcases List.mem_append.mp hc with h2 | h2
  · exact h c h2
  · simp only [List.mem_singleton] at h2
    rw [h2]; exact hr

theorem keysBelow_mono {α : Type} {cs : List (Nat × α)} {n m : Nat}
    (h : keysBelow cs n) (hm : n ≤ m) : keysBelow cs m :=
  fun c hc => Nat.lt_of_lt_of_le (h c hc) hm

/-- Heap well-formedness: every cell key is below the allocation counter. -/
abbrev WFH (st : HState) : Prop :=
  keysBelow st.intSets st.next ∧ keysBelow st.natSets st.next ∧
  keysBelow st.pairSets st.next ∧ keysBelow st.dicts st.next

/-- Every reference held (directly or through the dict) by an object is
below the allocation counter. -/
abbrev ORB (obj : CSPObj) (st : HState) : Prop :=
  (∀ r ∈ obj.domains, r < st.next) ∧ (∀ r ∈ obj.neighbors, r < st.next) ∧
  obj.allowedD < st.next ∧ (∀ e ∈ getDict st obj.allowedD, e.2 < st.next)

/-- Separation of two objects: no shared mutable cell, directly or through
their dicts. -/
abbrev Sep (A B : CSPObj) (st : HState) : Prop :=
  WFH st ∧ ORB A st ∧ ORB B st ∧
  (∀ r ∈ A.domains, r ∉ B.domains) ∧
  (∀ r ∈ A.neighbors, r ∉ B.neighbors) ∧
  A.allowedD ≠ B.allowedD ∧
  (∀ e ∈ getDict st A.allowedD, ∀ e2 ∈ getDict st B.allowedD, e.2 ≠ e2.2)

/-! ### Frame property of mutations through one object -/

/-- What a mutation through object `B` can do to the heap: it only writes
the cells `B` can reach and freshly allocated cells, it only moves the
allocation counter up, it keeps the heap well-formed, and any new entry of
the dict of `B` points at a freshly allocated cell. -/
def FrameProp (B : CSPObj) (st st2 : HState) : Prop :=
  (∀ r, r ∉ B.domains → getIntSet st2 r = getIntSet st r) ∧
  (∀ r, r ∉ B.neighbors → getNatSet st2 r = getNatSet st r) ∧
  (∀ r, r ≠ B.allowedD → getDict st2 r = getDict st r) ∧
  (∀ r, r < st.next → getPairSet st2 r = getPairSet st r) ∧
  st.next ≤ st2.next ∧
  (WFH st → WFH st2) ∧
  (∀ e ∈ getDict st2 B.allowedD,
    e ∈ getDict st B.allowedD ∨ (st.next ≤ e.2 ∧ e.2 < st2.next))

theorem FrameProp_refl (B : CSPObj) (st : HState) : FrameProp B st st :=
  ⟨fun _ _ => rfl, fun _ _ => rfl, fun _ _ => rfl, fun _ _ => rfl,
   Nat.le_refl _, id, fun _ he => Or.inl he⟩

theorem FrameProp_trans {B : CSPObj} {st st2 st3 : HState}
    (h1 : FrameProp B st st2) (h2 : FrameProp B st2 st3) : FrameProp B st st3 := by
  obtain ⟨a1, a2, a3, a4, a5, a6, a7⟩ := h1
  obtain ⟨b1, b2, b3, b4, b5, b6, b7⟩ := h2
  refine ⟨?_, ?_, ?_, ?_, Nat.le_trans a5 b5, fun h => b6 (a6 h), ?_⟩
  · intro r hr; rw [b1 r hr, a1 r hr]
  · intro r hr; rw [b2 r hr, a2 r hr]
  · intro r hr; rw [b3 r hr, a3 r hr]
  · intro r hr; rw [b4 r (Nat.lt_of_lt_of_le hr a5), a4 r hr]
  · intro e he
    rcases b7 e he with h | h
    · rcases a7 e h with h3 | h3
      · exact Or.inl h3
      · exact Or.inr ⟨h3.1, Nat.lt_of_lt_of_le h3.2 b5⟩
    · exact Or.inr ⟨Nat.le_trans a5 h.1, h.2⟩

theorem updCell_of_find?_none {α : Type} (r : Nat) (v : α) (cs : List (Nat × α))
    (h : cs.find? (fun c => c.1 = r) = none) : updCell cs r v = cs := by
  unfold updCell
  rw [List.find?_eq_none] at h
  have h2 : ∀ c ∈ cs, (if c.1 = r then (r, v) else c) = id c := by
    intro c hc
    rw [if_neg (by simpa using h c hc)]
    rfl
  rw [List.map_congr_left h2, List.map_id]

theorem getDict_dictAssign_ne (st : HState) (r r2 : Nat) (k : Arc) (pr : Nat)
    (h : r2 ≠ r) : getDict (dictAssign st r k pr) r2 = getDict st r2 := by
  unfold dictAssign setDict getDict
  show (getCell (updCell st.dicts r _) r2).getD [] = _
  rw [getCell_updCell_ne _ _ _ _ h]

theorem getDict_dictAssign_self (st : HState) (r : Nat) (k : Arc) (pr : Nat) :
    ∀ e ∈ getDict (dictAssign st r k pr) r, e ∈ getDict st r ∨ e = (k, pr) := by
  intro e he
  have he2 : e ∈ (getCell (updCell st.dicts r (setArcRef (getDict st r) k pr)) r).getD []
    := he
  cases hf : st.dicts.find? (fun c => c.1 = r) with
  | none =>
    rw [updCell_of_find?_none r (setArcRef (getDict st r) k pr) st.dicts hf] at he2
    exact Or.inl he2
  | some c =>
    rw [show getCell (updCell st.dicts r (setArcRef (getDict st r) k pr)) r
        = some (setArcRef (getDict st r) k pr) from by
      unfold getCell
      rw [find?_updCell_self r _ st.dicts (by rw [hf]; rfl)]
      rfl] at he2
    rw [Option.getD_some] at he2
    rcases mem_setArcRef k pr (getDict st r) e he2 with h2 | h2
    · exact Or.inl h2
    · exact Or.inr h2

theorem keysBelow_dictAssign {st : HState} {r : Nat} {k : Arc} {pr : Nat}
    (h : keysBelow st.dicts st.next) :
    keysBelow (dictAssign st r k pr).dicts (dictAssign st r k pr).next :=
  keysBelow_updCell_any h

/-- Frame property of the heap `remove_from_domain` through `B`. -/
theorem removeFromDomainH_frame (B : CSPObj) (v : Nat) (x : Int) (st : HState) :
    FrameProp B st (removeFromDomainH B v x st) := by
  unfold removeFromDomainH
  cases hdv : B.domains[v]? with
  | none => exact FrameProp_refl B st
  | some r =>
    by_cases hmem : x ∈ getIntSet st r
    · show FrameProp B st
        (if x ∈ getIntSet st r then setIntSet st r ((getIntSet st r).erase x) else st)
      rw [if_pos hmem]
      have hrB : r ∈ B.domains := List.getElem?_mem hdv
      refine ⟨?_, fun _ _ => rfl, fun _ _ => rfl, fun _ _ => rfl, Nat.le_refl _, ?_, ?_⟩
      · intro r2 hr2
        have : r2 ≠ r := fun hEq => hr2 (hEq ▸ hrB)
        show (getCell (updCell st.intSets r _) r2).getD [] = _
        rw [getCell_updCell_ne _ _ _ _ this]
        rfl
      · intro ⟨w1, w2, w3, w4⟩
        exact ⟨keysBelow_updCell_any w1, w2, w3, w4⟩
      · intro e he
        exact Or.inl he
    · show FrameProp B st
        (if x ∈ getIntSet st r then setIntSet st r ((getIntSet st r).erase x) else st)
      rw [if_neg hmem]
      exact FrameProp_refl B st

/-- Frame property of the heap `add_binary_constraint` through `B`. -/
theorem addBinaryH_frame (B : CSPObj) (i j : Nat) (pairs : List Pair) (st : HState) :
    FrameProp B st (addBinaryH B i j pairs st) := by
  unfold addBinaryH
  by_cases hij : i = j
  · rw [if_pos hij]; exact FrameProp_refl B st
  · rw [if_neg hij]
    cases hdi : B.domains[i]? with
    | none => exact FrameProp_refl B st
    | some ri =>
      cases hdj : B.domains[j]? with
      | none => exact FrameProp_refl B st
      | some rj =>
        cases hni : B.neighbors[i]? with
        | none => exact FrameProp_refl B st
        | some ni =>
          cases hnj : B.neighbors[j]? with
          | none => exact FrameProp_refl B st
          | some nj =>
            have hniB : ni ∈ B.neighbors := List.getElem?_mem hni
            have hnjB : nj ∈ B.neighbors := List.getElem?_mem hnj
            refine ⟨fun _ _ => rfl, ?_, ?_, ?_, ?_, ?_, ?_⟩
            · intro r hr
              have h1 : r ≠ ni := fun hEq => hr (hEq ▸ hniB)
              have h2 : r ≠ nj := fun hEq => hr (hEq ▸ hnjB)
              show (getCell (updCell (updCell st.natSets ni _) nj _) r).getD [] = _
              rw [getCell_updCell_ne _ _ _ _ h2, getCell_updCell_ne _ _ _ _ h1]
              rfl
            · intro r hr
              show (getCell (updCell st.dicts B.allowedD _) r).getD [] = _
              rw [getCell_updCell_ne _ _ _ _ hr]
              rfl
            · intro r hr
              show (getCell (st.pairSets ++ [(st.next, _)]) r).getD [] = _
              rw [getCell_append_ne _ _ _ _ (Nat.ne_of_lt hr)]
              rfl
            · exact Nat.le_succ _
            · intro ⟨w1, w2, w3, w4⟩
              refine ⟨keysBelow_mono w1 (Nat.le_succ _), ?_, ?_, ?_⟩
              · exact keysBelow_updCell_any (keysBelow_updCell_any
                  (keysBelow_mono w2 (Nat.le_succ _)))
              · exact keysBelow_append (keysBelow_mono w3 (Nat.le_succ _))
                  (Nat.lt_succ_self _)
              · exact keysBelow_updCell_any (keysBelow_mono w4 (Nat.le_succ _))
            · intro e he
              have he2 := getDict_dictAssign_self _ B.allowedD (i, j) st.next e (by
                show e ∈ (getCell (updCell st.dicts B.allowedD _) B.allowedD).getD []
                exact he)
              rcases he2 with h2 | h2
              · exact Or.inl h2
              · rw [h2]
                exact Or.inr ⟨Nat.le_refl _, Nat.lt_succ_self _⟩

/-- Frame property of the heap `add_symmetric_binary_constraint` through
`B`. -/
theorem addSymH_frame (B : CSPObj) (i j : Nat) (rel : List Pair) (st : HState) :
    FrameProp B st (addSymH B i j rel st) :=
  FrameProp_trans (addBinaryH_frame B i j rel.dedup st)
    (addBinaryH_frame B j i _ _)

/-- Frame property of the heap `add_all_diff_edge` through `B`. -/
theorem addAllDiffH_frame (B : CSPObj) (i j : Nat) (st : HState) :
    FrameProp B st (addAllDiffH B i j st) := by
  unfold addAllDiffH
  cases hdi : B.domains[i]? with
  | none => exact FrameProp_refl B st
  | some ri =>
    cases hdj : B.domains[j]? with
    | none => exact FrameProp_refl B st
    | some rj =>
      cases hni : B.neighbors[i]? with
      | none => exact FrameProp_refl B st
      | some ni =>
        cases hnj : B.neighbors[j]? with
        | none => exact FrameProp_refl B st
        | some nj =>
          have hniB : ni ∈ B.neighbors := List.getElem?_mem hni
          have hnjB : nj ∈ B.neighbors := List.getElem?_mem hnj
          refine ⟨fun _ _ => rfl, ?_, ?_, ?_, ?_, ?_, ?_⟩
          · intro r hr
            have h1 : r ≠ ni := fun hEq => hr (hEq ▸ hniB)
            have h2 : r ≠ nj := fun hEq => hr (hEq ▸ hnjB)
            show (getCell (updCell (updCell st.natSets ni _) nj _) r).getD [] = _
            rw [getCell_updCell_ne _ _ _ _ h2, getCell_updCell_ne _ _ _ _ h1]
            rfl
          · intro r hr
            show (getCell (updCell (updCell st.dicts B.allowedD _) B.allowedD _) r).getD []
              = _
            rw [getCell_updCell_ne _ _ _ _ hr, getCell_updCell_ne _ _ _ _ hr]
            rfl
          · intro r hr
            show (getCell ((st.pairSets ++ [(st.next, _)]) ++ [(st.next + 1, _)]) r).getD []
              = _
            rw [getCell_append_ne _ _ _ _
                (Nat.ne_of_lt (Nat.lt_succ_of_lt hr)),
              getCell_append_ne _ _ _ _ (Nat.ne_of_lt hr)]
            rfl
          · exact Nat.le_add_right _ 2
          · intro ⟨w1, w2, w3, w4⟩
            refine ⟨keysBelow_mono w1 (Nat.le_add_right _ 2), ?_, ?_, ?_⟩
            · exact keysBelow_updCell_any (keysBelow_updCell_any
                (keysBelow_mono w2 (Nat.le_add_right _ 2)))
            · exact keysBelow_append
                (keysBelow_append (keysBelow_mono w3 (Nat.le_add_right _ 2))
                  (Nat.lt_of_lt_of_le (Nat.lt_succ_self _) (Nat.le_succ _)))
                (Nat.lt_succ_self _)
            · exact keysBelow_updCell_any (keysBelow_updCell_any
                (keysBelow_mono w4 (Nat.le_add_right _ 2)))
          · intro e he
            have hstep2 := getDict_dictAssign_self
              (dictAssign ((allocPairSet ((allocPairSet st
                (prodNe (getIntSet st ri) (getIntSet st rj))).2)
                ((prodNe (getIntSet st ri) (getIntSet st rj)).map
                  (fun p => (p.2, p.1)))).2) B.allowedD (i, j) st.next)
              B.allowedD (j, i) (st.next + 1) e (by
                show e ∈ (getCell (updCell (updCell st.dicts B.allowedD _)
                  B.allowedD _) B.allowedD).getD []
                exact he)
            rcases hstep2 with h2 | h2
            · have hstep1 := getDict_dictAssign_self
                ((allocPairSet ((allocPairSet st
                  (prodNe (getIntSet st ri) (getIntSet st rj))).2)
                  ((prodNe (getIntSet st ri) (getIntSet st rj)).map
                    (fun p => (p.2, p.1)))).2) B.allowedD (i, j) st.next e h2
              rcases hstep1 with h3 | h3
              · exact Or.inl h3
              · rw [h3]
                exact Or.inr ⟨Nat.le_refl _,
                  Nat.lt_of_lt_of_le (Nat.lt_succ_self _) (Nat.le_succ _)⟩
            · rw [h2]
              exact Or.inr ⟨Nat.le_succ _, Nat.lt_succ_self _⟩

theorem reviseGoH_fields (ri rj : Nat) (t : List Pair) :
    ∀ (l : List Int) (st : HState),
      (reviseGoH ri rj t l st).natSets = st.natSets ∧
      (reviseGoH ri rj t l st).pairSets = st.pairSets ∧
      (reviseGoH ri rj t l st).dicts = st.dicts ∧
      (reviseGoH ri rj t l st).next = st.next := by
  intro l
  induction l with
  | nil => intro st; exact ⟨rfl, rfl, rfl, rfl⟩
  | cons vi rest ih =>
    intro st
    rw [reviseGoH]
    by_cases h : ((getIntSet st rj).any (fun vj => t.contains (vi, vj))) = true
    · rw [if_pos h]; exact ih st
    · rw [if_neg h]; exact ih _

theorem reviseGoH_intSet_ne (ri rj : Nat) (t : List Pair) :
    ∀ (l : List Int) (st : HState) (r : Nat), r ≠ ri →
      getIntSet (reviseGoH ri rj t l st) r = getIntSet st r := by
  intro l
  induction l with
  | nil => intro st r _; rfl
  | cons vi rest ih =>
    intro st r hr
    rw [reviseGoH]
    by_cases h : ((getIntSet st rj).any (fun vj => t.contains (vi, vj))) = true
    · rw [if_pos h]; exact ih st r hr
    · rw [if_neg h]
      rw [ih _ r hr]
      show (getCell (updCell st.intSets ri _) r).getD [] = _
      rw [getCell_updCell_ne _ _ _ _ hr]
      rfl

theorem reviseGoH_intSet_keys (ri rj : Nat) (t : List Pair) :
    ∀ (l : List Int) (st : HState), keysBelow st.intSets st.next →
      keysBelow (reviseGoH ri rj t l st).intSets (reviseGoH ri rj t l st).next := by
  intro l
  induction l with
  | nil => intro st h; exact h
  | cons vi rest ih =>
    intro st h
    rw [reviseGoH]
    by_cases hc : ((getIntSet st rj).any (fun vj => t.contains (vi, vj))) = true
    · rw [if_pos hc]; exact ih st h
    · rw [if_neg hc]
      exact ih _ (keysBelow_updCell_any h)

/-- Frame property of the heap `revise` through `B`. -/
theorem reviseH_frame (B : CSPObj) (xi xj : Nat) (st : HState) :
    FrameProp B st (reviseH B xi xj st) := by
  unfold reviseH
  cases hf : (getDict st B.allowedD).find? (fun e => e.1 = (xi, xj)) with
  | none => exact FrameProp_refl B st
  | some e0 =>
    cases hdi : B.domains[xi]? with
    | none => exact FrameProp_refl B st
    | some ri =>
      cases hdj : B.domains[xj]? with
      | none => exact FrameProp_refl B st
      | some rj =>
        have hriB : ri ∈ B.domains := List.getElem?_mem hdi
        obtain ⟨f1, f2, f3, f4⟩ := reviseGoH_fields ri rj (getPairSet st e0.2)
          (getIntSet st ri) st
        refine ⟨?_, ?_, ?_, ?_, ?_, ?_, ?_⟩
        · intro r hr
          exact reviseGoH_intSet_ne ri rj _ _ st r (fun hEq => hr (hEq ▸ hriB))
        · intro r _
          show (getCell (reviseGoH ri rj _ _ st).natSets r).getD [] = _
          rw [f1]
          rfl
        · intro r _
          show (getCell (reviseGoH ri rj _ _ st).dicts r).getD [] = _
          rw [f3]
          rfl
        · intro r _
          show (getCell (reviseGoH ri rj _ _ st).pairSets r).getD [] = _
          rw [f2]
          rfl
        · rw [f4]
        · intro ⟨w1, w2, w3, w4⟩
          refine ⟨reviseGoH_intSet_keys ri rj _ _ st w1, ?_, ?_, ?_⟩
          · rw [f1, f4]; exact w2
          · rw [f2, f4]; exact w3
          · rw [f3, f4]; exact w4
        · intro e he
          refine Or.inl ?_
          have he2 : e ∈ getDict
              (reviseGoH ri rj (getPairSet st e0.2) (getIntSet st ri) st) B.allowedD := he
          have h3 : getDict (reviseGoH ri rj (getPairSet st e0.2) (getIntSet st ri) st)
              B.allowedD = (getCell st.dicts B.allowedD).getD [] := by
            show (getCell (reviseGoH ri rj (getPairSet st e0.2) (getIntSet st ri) st).dicts
              B.allowedD).getD [] = _
            rw [f3]
          show e ∈ (getCell st.dicts B.allowedD).getD []
          rw [← h3]
          exact he2

/-- Frame property of any public operation through `B`. -/
theorem applyPubH_frame (B : CSPObj) (st : HState) (op : PubOp) :
    FrameProp B st (applyPubH B st op) := by
  cases op with
  | bin i j pairs => exact addBinaryH_frame B i j pairs st
  | sym i j rel => exact addSymH_frame B i j rel st
  | diff i j => exact addAllDiffH_frame B i j st
  | rem v x => exact removeFromDomainH_frame B v x st
  | rev xi xj => exact reviseH_frame B xi xj st

/-- Frame property of any sequence of public operations through `B`. -/
theorem applyPubsH_frame (B : CSPObj) :
    ∀ (ops : List PubOp) (st : HState), FrameProp B st (applyPubsH B ops st) := by
  intro ops
  induction ops with
  | nil => intro st; exact FrameProp_refl B st
  | cons op rest ih =>
    intro st
    exact FrameProp_trans (applyPubH_frame B st op) (ih (applyPubH B st op))

/-! ### Reads through a separated object are untouched by framed mutations -/

theorem views_preserved (A B : CSPObj) (st st2 : HState)
    (hsep : Sep A B st) (hfr : FrameProp B st st2) :
    viewDomains A st2 = viewDomains A st ∧
    viewNeighbors A st2 = viewNeighbors A st ∧
    viewAllowed A st2 = viewAllowed A st := by
  obtain ⟨hwf, horbA, horbB, hd, hn, ha, hdict⟩ := hsep
  obtain ⟨f1, f2, f3, f4, f5, f6, f7⟩ := hfr
  refine ⟨?_, ?_, ?_⟩
  · show A.domains.map (getIntSet st2) = A.domains.map (getIntSet st)
    exact List.map_congr_left (fun r hr => f1 r (hd r hr))
  · show A.neighbors.map (getNatSet st2) = A.neighbors.map (getNatSet st)
    exact List.map_congr_left (fun r hr => f2 r (hn r hr))
  · show (getDict st2 A.allowedD).map (fun e => (e.1, getPairSet st2 e.2))
      = (getDict st A.allowedD).map (fun e => (e.1, getPairSet st e.2))
    rw [f3 A.allowedD ha]
    exact List.map_congr_left (fun e he => by
      rw [f4 e.2 (horbA.2.2.2 e he)])

theorem Sep_symm {A B : CSPObj} {st : HState} (h : Sep A B st) : Sep B A st := by
  obtain ⟨hwf, horbA, horbB, hd, hn, ha, hdict⟩ := h
  refine ⟨hwf, horbB, horbA, ?_, ?_, Ne.symm ha, ?_⟩
  · intro r hrB hrA
    exact hd r hrA hrB
  · intro r hrB hrA
    exact hn r hrA hrB
  · intro e he e2 he2
    exact (hdict e2 he2 e he).symm

/-! ### Specifications of the batch allocators used by the copy -/

theorem allocIntSets_spec (vs : List (List Int)) : ∀ st : HState,
    (allocIntSets st vs).2.natSets = st.natSets ∧
    (allocIntSets st vs).2.pairSets = st.pairSets ∧
    (allocIntSets st vs).2.dicts = st.dicts ∧
    (allocIntSets st vs).2.next = st.next + vs.length ∧
    (∀ r ∈ (allocIntSets st vs).1, st.next ≤ r ∧ r < (allocIntSets st vs).2.next) ∧
    (∀ r, r < st.next → getIntSet (allocIntSets st vs).2 r = getIntSet st r) ∧
    (keysBelow st.intSets st.next →
      keysBelow (allocIntSets st vs).2.intSets (allocIntSets st vs).2.next) := by
  induction vs with
  | nil =>
    intro st
    exact ⟨rfl, rfl, rfl, rfl, fun r hr => absurd hr (List.not_mem_nil r),
      fun r _ => rfl, id⟩
  | cons v vs ih =>
    intro st
    obtain ⟨i1, i2, i3, i4, i5, i6, i7⟩ := ih (allocIntSet st v).2
    have hnext : (allocIntSets (allocIntSet st v).2 vs).2.next
        = st.next + 1 + vs.length := i4
    refine ⟨i1, i2, i3, ?_, ?_, ?_, ?_⟩
    · show (allocIntSets (allocIntSet st v).2 vs).2.next = st.next + (vs.length + 1)
      omega
    · intro r hr
      have hr2 : r ∈ (allocIntSet st v).1 :: (allocIntSets (allocIntSet st v).2 vs).1
        := hr
      show st.next ≤ r ∧ r < (allocIntSets (allocIntSet st v).2 vs).2.next
      rcases List.mem_cons.mp hr2 with h2 | h2
      · have h3 : r = st.next := h2
        omega
      · have h3 := i5 r h2
        have h4 : st.next + 1 ≤ r := h3.1
        exact ⟨by omega, h3.2⟩
    · intro r hrlt
      have h1 : getIntSet (allocIntSets (allocIntSet st v).2 vs).2 r
          = getIntSet (allocIntSet st v).2 r := i6 r (Nat.lt_succ_of_lt hrlt)
      have h2 : getIntSet (allocIntSet st v).2 r = getIntSet st r := by
        show (getCell (st.intSets ++ [(st.next, v)]) r).getD [] = _
        rw [getCell_append_ne _ _ _ _ (Nat.ne_of_lt hrlt)]
        rfl
      exact h1.trans h2
    · intro hkb
      exact i7 (keysBelow_append (keysBelow_mono hkb (Nat.le_succ _))
        (Nat.lt_succ_self _))

theorem allocNatSets_spec (vs : List (List Nat)) : ∀ st : HState,
    (allocNatSets st vs).2.intSets = st.intSets ∧
    (allocNatSets st vs).2.pairSets = st.pairSets ∧
    (allocNatSets st vs).2.dicts = st.dicts ∧
    (allocNatSets st vs).2.next = st.next + vs.length ∧
    (∀ r ∈ (allocNatSets st vs).1, st.next ≤ r ∧ r < (allocNatSets st vs).2.next) ∧
    (∀ r, r < st.next → getNatSet (allocNatSets st vs).2 r = getNatSet st r) ∧
    (keysBelow st.natSets st.next →
      keysBelow (allocNatSets st vs).2.natSets (allocNatSets st vs).2.next) := by
  induction vs with
  | nil =>
    intro st
    exact ⟨rfl, rfl, rfl, rfl, fun r hr => absurd hr (List.not_mem_nil r),
      fun r _ => rfl, id⟩
  | cons v vs ih =>
    intro st
    obtain ⟨i1, i2, i3, i4, i5, i6, i7⟩ := ih (allocNatSet st v).2
    have hnext : (allocNatSets (allocNatSet st v).2 vs).2.next
        = st.next + 1 + vs.length := i4
    refine ⟨i1, i2, i3, ?_, ?_, ?_, ?_⟩
    · show (allocNatSets (allocNatSet st v).2 vs).2.next = st.next + (vs.length + 1)
      omega
    · intro r hr
      have hr2 : r ∈ (allocNatSet st v).1 :: (allocNatSets (allocNatSet st v).2 vs).1
        := hr
      show st.next ≤ r ∧ r < (allocNatSets (allocNatSet st v).2 vs).2.next
      rcases List.mem_cons.mp hr2 with h2 | h2
      · have h3 : r = st.next := h2
        omega
      · have h3 := i5 r h2
        have h4 : st.next + 1 ≤ r := h3.1
        exact ⟨by omega, h3.2⟩
    · intro r hrlt
      have h1 : getNatSet (allocNatSets (allocNatSet st v).2 vs).2 r
          = getNatSet (allocNatSet st v).2 r := i6 r (Nat.lt_succ_of_lt hrlt)
      have h2 : getNatSet (allocNatSet st v).2 r = getNatSet st r := by
        show (getCell (st.natSets ++ [(st.next, v)]) r).getD [] = _
        rw [getCell_append_ne _ _ _ _ (Nat.ne_of_lt hrlt)]
        rfl
      exact h1.trans h2
    · intro hkb
      exact i7 (keysBelow_append (keysBelow_mono hkb (Nat.le_succ _))
        (Nat.lt_succ_self _))

theorem allocPairSets_spec (vs : List (List Pair)) : ∀ st : HState,
    (allocPairSets st vs).2.intSets = st.intSets ∧
    (allocPairSets st vs).2.natSets = st.natSets ∧
    (allocPairSets st vs).2.dicts = st.dicts ∧
    (allocPairSets st vs).2.next = st.next + vs.length ∧
    (∀ r ∈ (allocPairSets st vs).1, st.next ≤ r ∧ r < (allocPairSets st vs).2.next) ∧
    (∀ r, r < st.next → getPairSet (allocPairSets st vs).2 r = getPairSet st r) ∧
    (keysBelow st.pairSets st.next →
      keysBelow (allocPairSets st vs).2.pairSets (allocPairSets st vs).2.next) := by
  induction vs with
  | nil =>
    intro st
    exact ⟨rfl, rfl, rfl, rfl, fun r hr => absurd hr (List.not_mem_nil r),
      fun r _ => rfl, id⟩
  | cons v vs ih =>
    intro st
    obtain ⟨i1, i2, i3, i4, i5, i6, i7⟩ := ih (allocPairSet st v).2
    have hnext : (allocPairSets (allocPairSet st v).2 vs).2.next
        = st.next + 1 + vs.length := i4
    refine ⟨i1, i2, i3, ?_, ?_, ?_, ?_⟩
    · show (allocPairSets (allocPairSet st v).2 vs).2.next = st.next + (vs.length + 1)
      omega
    · intro r hr
      have hr2 : r ∈ (allocPairSet st v).1 :: (allocPairSets (allocPairSet st v).2 vs).1
        := hr
      show st.next ≤ r ∧ r < (allocPairSets (allocPairSet st v).2 vs).2.next
      rcases List.mem_cons.mp hr2 with h2 | h2
      · have h3 : r = st.next := h2
        omega
      · have h3 := i5 r h2
        have h4 : st.next + 1 ≤ r := h3.1
        exact ⟨by omega, h3.2⟩
    · intro r hrlt
      have h1 : getPairSet (allocPairSets (allocPairSet st v).2 vs).2 r
          = getPairSet (allocPairSet st v).2 r := i6 r (Nat.lt_succ_of_lt hrlt)
      have h2 : getPairSet (allocPairSet st v).2 r = getPairSet st r := by
        show (getCell (st.pairSets ++ [(st.next, v)]) r).getD [] = _
        rw [getCell_append_ne _ _ _ _ (Nat.ne_of_lt hrlt)]
        rfl
      exact h1.trans h2
    · intro hkb
      exact i7 (keysBelow_append (keysBelow_mono hkb (Nat.le_succ _))
        (Nat.lt_succ_self _))

/-! ### Specification of the copy -/

theorem copy_stages (obj : CSPObj) (st : HState)
    (hwf : WFH st) (horb : ORB obj st)
    (ds : List Nat) (st1 : HState)
    (h1 : allocIntSets st (obj.domains.map (getIntSet st)) = (ds, st1))
    (ps : List Nat) (st2 : HState)
    (h2 : allocPairSets st1
      ((getDict st obj.allowedD).map (fun e => getPairSet st e.2)) = (ps, st2))
    (ad : Nat) (st3 : HState)
    (h3 : allocDict st2
      (((getDict st obj.allowedD).map (·.1)).zip ps) = (ad, st3))
    (ns : List Nat) (st4 : HState)
    (h4 : allocNatSets st3 (obj.neighbors.map (getNatSet st)) = (ns, st4)) :
    viewDomains obj st4 = viewDomains obj st ∧
    viewNeighbors obj st4 = viewNeighbors obj st ∧
    viewAllowed obj st4 = viewAllowed obj st ∧
    Sep obj ⟨obj.n_vars, ds, ad, ns⟩ st4 := by
  obtain ⟨hwfI, hwfN, hwfP, hwfD⟩ := hwf
  obtain ⟨hoD, hoN, hoA, hoE⟩ := horb
  -- stage 1: the domain copies
  have hs1 : (allocIntSets st (obj.domains.map (getIntSet st))).2 = st1 :=
    congrArg Prod.snd h1
  have hr1 : (allocIntSets st (obj.domains.map (getIntSet st))).1 = ds :=
    congrArg Prod.fst h1
  obtain ⟨a1, a2, a3, a4, a5, a6, a7⟩ :=
    allocIntSets_spec (obj.domains.map (getIntSet st)) st
  rw [hs1] at a1 a2 a3 a4 a5 a6 a7
  rw [hr1] at a5
  -- stage 2: the table copies
  have hs2 : (allocPairSets st1
      ((getDict st obj.allowedD).map (fun e => getPairSet st e.2))).2 = st2 :=
    congrArg Prod.snd h2
  have hr2 : (allocPairSets st1
      ((getDict st obj.allowedD).map (fun e => getPairSet st e.2))).1 = ps :=
    congrArg Prod.fst h2
  obtain ⟨b1, b2, b3, b4, b5, b6, b7⟩ :=
    allocPairSets_spec ((getDict st obj.allowedD).map (fun e => getPairSet st e.2)) st1
  rw [hs2] at b1 b2 b3 b4 b5 b6 b7
  rw [hr2] at b5
  -- stage 3: the fresh dict
  have hs3 : (allocDict st2 (((getDict st obj.allowedD).map (·.1)).zip ps)).2 = st3 :=
    congrArg Prod.snd h3
  have had : ad = st2.next :=
    (congrArg Prod.fst h3).symm
  have hd3i : st3.intSets = st2.intSets := by rw [← hs3]; rfl
  have hd3n : st3.natSets = st2.natSets := by rw [← hs3]; rfl
  have hd3p : st3.pairSets = st2.pairSets := by rw [← hs3]; rfl
  have hd3d : st3.dicts
      = st2.dicts ++ [(st2.next, ((getDict st obj.allowedD).map (·.1)).zip ps)] := by
    rw [← hs3]; rfl
  have hd3x : st3.next = st2.next + 1 := by rw [← hs3]; rfl
  -- stage 4: the neighbor copies
  have hs4 : (allocNatSets st3 (obj.neighbors.map (getNatSet st))).2 = st4 :=
    congrArg Prod.snd h4
  have hr4 : (allocNatSets st3 (obj.neighbors.map (getNatSet st))).1 = ns :=
    congrArg Prod.fst h4
  obtain ⟨d1, d2, d3, d4, d5, d6, d7⟩ :=
    allocNatSets_spec (obj.neighbors.map (getNatSet st)) st3
  rw [hs4] at d1 d2 d3 d4 d5 d6 d7
  rw [hr4] at d5
  -- old reads are preserved through all four stages
  have hIget : ∀ r, r < st.next → getIntSet st4 r = getIntSet st r := by
    intro r hr
    have h5 : getIntSet st4 r = getIntSet st1 r := by
      show (getCell st4.intSets r).getD [] = _
      rw [d1, hd3i, b1]
      rfl
    rw [h5]
    exact a6 r hr
  have hNget : ∀ r, r < st.next → getNatSet st4 r = getNatSet st r := by
    intro r hr
    have h5 : getNatSet st3 r = getNatSet st r := by
      show (getCell st3.natSets r).getD [] = _
      rw [hd3n, b2, a1]
      rfl
    rw [d6 r (by omega), h5]
  have hPget : ∀ r, r < st.next → getPairSet st4 r = getPairSet st r := by
    intro r hr
    have h5 : getPairSet st4 r = getPairSet st2 r := by
      show (getCell st4.pairSets r).getD [] = _
      rw [d2, hd3p]
      rfl
    have h7 : getPairSet st2 r = getPairSet st1 r := b6 r (by omega)
    have h8 : getPairSet st1 r = getPairSet st r := by
      show (getCell st1.pairSets r).getD [] = _
      rw [a2]
      rfl
    rw [h5, h7, h8]
  have hDget : getDict st4 obj.allowedD = getDict st obj.allowedD := by
    have h5 : getDict st4 obj.allowedD = getDict st3 obj.allowedD := by
      show (getCell st4.dicts obj.allowedD).getD [] = _
      rw [d3]
      rfl
    have h6 : getDict st3 obj.allowedD = getDict st2 obj.allowedD := by
      show (getCell st3.dicts obj.allowedD).getD [] = _
      rw [hd3d,
        getCell_append_ne _ _ _ _ (Nat.ne_of_lt (show obj.allowedD < st2.next by omega))]
      rfl
    have h7 : getDict st2 obj.allowedD = getDict st obj.allowedD := by
      show (getCell st2.dicts obj.allowedD).getD [] = _
      rw [b3, a3]
      rfl
    rw [h5, h6, h7]
  -- the dict of the clone holds exactly the copied entries
  have hkb2d : keysBelow st2.dicts st2.next := by
    rw [b3, a3]
    exact keysBelow_mono hwfD (by omega)
  have hCdict : getDict st4 ad = ((getDict st obj.allowedD).map (·.1)).zip ps := by
    have h5 : getDict st4 ad = getDict st3 ad := by
      show (getCell st4.dicts ad).getD [] = _
      rw [d3]
      rfl
    have h6 : getDict st3 ad
        = ((getDict st obj.allowedD).map (·.1)).zip ps := by
      show (getCell st3.dicts ad).getD [] = _
      rw [hd3d, had,
        getCell_append_fresh st2.dicts st2.next _ (fun c hc => Nat.ne_of_lt (hkb2d c hc))]
      rfl
    rw [h5, h6]
  have hzip : ∀ e ∈ ((getDict st obj.allowedD).map (·.1)).zip ps,
      st1.next ≤ e.2 ∧ e.2 < st2.next := by
    intro e he
    cases e with
    | mk k r =>
      have h5 := (List.of_mem_zip he).2
      exact b5 r h5
  refine ⟨?_, ?_, ?_, ?_, ⟨?_, ?_, ?_, ?_⟩, ⟨?_, ?_, ?_, ?_⟩, ?_, ?_, ?_, ?_⟩
  · -- the domain view of the original is unchanged
    show obj.domains.map (getIntSet st4) = obj.domains.map (getIntSet st)
    exact List.map_congr_left (fun r hr => hIget r (hoD r hr))
  · -- the neighbor view of the original is unchanged
    show obj.neighbors.map (getNatSet st4) = obj.neighbors.map (getNatSet st)
    exact List.map_congr_left (fun r hr => hNget r (hoN r hr))
  · -- the table view of the original is unchanged
    show (getDict st4 obj.allowedD).map (fun e => (e.1, getPairSet st4 e.2))
      = (getDict st obj.allowedD).map (fun e => (e.1, getPairSet st e.2))
    rw [hDget]
    exact List.map_congr_left (fun e he => by rw [hPget e.2 (hoE e he)])
  · -- the final heap is well-formed
    refine ⟨?_, d7 ?_, ?_, ?_⟩
    · have h5 : keysBelow st4.intSets st1.next := by
        rw [d1, hd3i, b1]
        exact a7 hwfI
      exact keysBelow_mono h5 (by omega)
    · rw [hd3n, b2, a1]
      exact keysBelow_mono hwfN (by omega)
    · have h5 : keysBelow st4.pairSets st2.next := by
        rw [d2, hd3p]
        exact b7 (by rw [a2]; exact keysBelow_mono hwfP (by omega))
      exact keysBelow_mono h5 (by omega)
    · have h5 : keysBelow st4.dicts st3.next := by
        rw [d3, hd3d]
        exact keysBelow_append (keysBelow_mono hkb2d (by omega)) (by omega)
      exact keysBelow_mono h5 (by omega)
  · -- the original still points below the counter
    intro r hr
    have := hoD r hr
    omega
  · intro r hr
    have := hoN r hr
    omega
  · omega
  · intro e he
    rw [hDget] at he
    have := hoE e he
    omega
  · -- the clone points below the counter
    intro r hr
    have := a5 r hr
    omega
  · intro r hr
    have := d5 r hr
    omega
  · show ad < st4.next
    omega
  · intro e he
    rw [hCdict] at he
    have := hzip e he
    omega
  · -- no domain cell is shared
    intro r hr hmem
    have h5 := hoD r hr
    have h6 := (a5 r hmem).1
    omega
  · -- no neighbor cell is shared
    intro r hr hmem
    have h5 := hoN r hr
    have h6 := (d5 r hmem).1
    omega
  · -- the dicts differ
    show obj.allowedD ≠ ad
    omega
  · -- no table cell is shared
    intro e he e2 he2
    rw [hDget] at he
    rw [hCdict] at he2
    have h5 := hoE e he
    have h6 := hzip e2 he2
    omega

theorem copy_spec (obj : CSPObj) (st : HState)
    (hwf : WFH st) (horb : ORB obj st) :
    viewDomains obj (copyWithDomainsH obj st).2 = viewDomains obj st ∧
    viewNeighbors obj (copyWithDomainsH obj st).2 = viewNeighbors obj st ∧
    viewAllowed obj (copyWithDomainsH obj st).2 = viewAllowed obj st ∧
    Sep obj (copyWithDomainsH obj st).1 (copyWithDomainsH obj st).2 :=
  copy_stages obj st hwf horb _ _ rfl _ _ rfl _ _ rfl _ _ rfl

/-! ### Claim C4: the clone shares no mutable state with the original -/

/-- A concrete two-variable object on a concrete heap: domains in cells 0
and 1, the compatibility dict in cell 2 pointing at table cells 5 and 6, and
neighbor sets in cells 3 and 4. -/
def hObj : CSPObj := ⟨2, [0, 1], 2, [3, 4]⟩

def hSt : HState :=
  ⟨[(0, [1, 2]), (1, [1, 2])], [(3, [1]), (4, [0])],
   [(5, [(1, 2), (2, 1)]), (6, [(2, 1), (1, 2)])],
   [(2, [((0, 1), 5), ((1, 0), 6)])], 7⟩

/-- C4: the clone returned by `copy_with_domains` shares no mutable state
with the original.  On any well-formed heap, immediately after the copy the
original reads back its pre-copy domains, neighbor cache and compatibility
tables; every sequence of public mutations applied through the clone
(domain removals, constraint installations, revise calls) leaves all three
views of the original at their pre-copy contents; and symmetrically, every
sequence of public mutations applied through the original leaves all three
views of the clone unchanged. -/
theorem copy_with_domains_independent (obj : CSPObj) (st : HState)
    (hwf : WFH st) (horb : ORB obj st) :
    (viewDomains obj (copyWithDomainsH obj st).2 = viewDomains obj st ∧
     viewNeighbors obj (copyWithDomainsH obj st).2 = viewNeighbors obj st ∧
     viewAllowed obj (copyWithDomainsH obj st).2 = viewAllowed obj st) ∧
    (∀ ops : List PubOp,
      viewDomains obj
          (applyPubsH (copyWithDomainsH obj st).1 ops (copyWithDomainsH obj st).2)
        = viewDomains obj st ∧
      viewNeighbors obj
          (applyPubsH (copyWithDomainsH obj st).1 ops (copyWithDomainsH obj st).2)
        = viewNeighbors obj st ∧
      viewAllowed obj
          (applyPubsH (copyWithDomainsH obj st).1 ops (copyWithDomainsH obj st).2)
        = viewAllowed obj st) ∧
    (∀ ops : List PubOp,
      viewDomains (copyWithDomainsH obj st).1
          (applyPubsH obj ops (copyWithDomainsH obj st).2)
        = viewDomains (copyWithDomainsH obj st).1 (copyWithDomainsH obj st).2 ∧
      viewNeighbors (copyWithDomainsH obj st).1
          (applyPubsH obj ops (copyWithDomainsH obj st).2)
        = viewNeighbors (copyWithDomainsH obj st).1 (copyWithDomainsH obj st).2 ∧
      viewAllowed (copyWithDomainsH obj st).1
          (applyPubsH obj ops (copyWithDomainsH obj st).2)
        = viewAllowed (copyWithDomainsH obj st).1 (copyWithDomainsH obj st).2) := by
  obtain ⟨hv1, hv2, hv3, hsep⟩ := copy_spec obj st hwf horb
  refine ⟨⟨hv1, hv2, hv3⟩, ?_, ?_⟩
  · intro ops
    obtain ⟨p1, p2, p3⟩ := views_preserved obj (copyWithDomainsH obj st).1
      (copyWithDomainsH obj st).2
      (applyPubsH (copyWithDomainsH obj st).1 ops (copyWithDomainsH obj st).2)
      hsep (applyPubsH_frame (copyWithDomainsH obj st).1 ops (copyWithDomainsH obj st).2)
    exact ⟨p1.trans hv1, p2.trans hv2, p3.trans hv3⟩
  · intro ops
    exact views_preserved (copyWithDomainsH obj st).1 obj
      (copyWithDomainsH obj st).2
      (applyPubsH obj ops (copyWithDomainsH obj st).2)
      (Sep_symm hsep) (applyPubsH_frame obj ops (copyWithDomainsH obj st).2)

theorem copy_with_domains_independent_witness :
    (WFH hSt ∧ ORB hObj hSt) ∧
    ((viewDomains hObj (copyWithDomainsH hObj hSt).2 = viewDomains hObj hSt ∧
      viewNeighbors hObj (copyWithDomainsH hObj hSt).2 = viewNeighbors hObj hSt ∧
      viewAllowed hObj (copyWithDomainsH hObj hSt).2 = viewAllowed hObj hSt) ∧
     (∀ ops : List PubOp,
       viewDomains hObj
           (applyPubsH (copyWithDomainsH hObj hSt).1 ops (copyWithDomainsH hObj hSt).2)
         = viewDomains hObj hSt ∧
       viewNeighbors hObj
           (applyPubsH (copyWithDomainsH hObj hSt).1 ops (copyWithDomainsH hObj hSt).2)
         = viewNeighbors hObj hSt ∧
       viewAllowed hObj
           (applyPubsH (copyWithDomainsH hObj hSt).1 ops (copyWithDomainsH hObj hSt).2)
         = viewAllowed hObj hSt) ∧
     (∀ ops : List PubOp,
       viewDomains (copyWithDomainsH hObj hSt).1
           (applyPubsH hObj ops (copyWithDomainsH hObj hSt).2)
         = viewDomains (copyWithDomainsH hObj hSt).1 (copyWithDomainsH hObj hSt).2 ∧
       viewNeighbors (copyWithDomainsH hObj hSt).1
           (applyPubsH hObj ops (copyWithDomainsH hObj hSt).2)
         = viewNeighbors (copyWithDomainsH hObj hSt).1 (copyWithDomainsH hObj hSt).2 ∧
       viewAllowed (copyWithDomainsH hObj hSt).1
           (applyPubsH hObj ops (copyWithDomainsH hObj hSt).2)
         = viewAllowed (copyWithDomainsH hObj hSt).1 (copyWithDomainsH hObj hSt).2)) :=
  ⟨⟨by decide, by decide⟩,
   copy_with_domains_independent hObj hSt (by decide) (by decide)⟩

end CSPSpec
